import Mathlib

/-!
Verification of the JSON formatting subsystem of a tracing library
(file src/tracing-subscriber/src/fmt/format/json.rs).

The development embeds, in order:
  * a model of serde_json values, their compact serialization, and a parser
    mirroring serde_json's from_str (objects are backed by a BTreeMap, so the
    parser builds objects as sorted, key-deduplicated association lists;
    numbers are modelled as integers, the only numeric values this component
    ever writes);
  * the BTreeMap of the JsonVisitor as a sorted association list;
  * the field visitor (record_i64 / record_u64 / record_bool / record_str /
    record_debug) and the FormatFields implementation for JsonFields
    (format_fields and add_fields);
  * serialize_formatted_fields of SerializableSpan, MergeParentFieldsMap, and
    the format_event orchestration as a list of emission steps run against a
    write-failure oracle (the output sink is an external collaborator whose
    failures are arbitrary, so they are abstracted as an oracle naming which
    emission step's write fails);
  * the WriteAdaptor bridge with a byte-level UTF-8 validator.
-/

/-- Boolean lexicographic comparison of character lists, mirroring the
byte-wise ordering Rust's BTreeMap uses on string keys. It backs a
kernel-computable decidability instance for the strict order on String. -/
def strLtB : List Char → List Char → Bool
  | _, [] => false
  | [], _ :: _ => true
  | a :: as, b :: bs =>
    if a < b then true
    else if b < a then false
    else strLtB as bs

/-- Kernel-computable decidability of the strict order on String (the default
instance reduces through a well-founded recursion, which the kernel cannot
evaluate; this one is structural). -/
instance (priority := 2000) strDecidableLT (a b : String) : Decidable (a < b) :=
  decidable_of_iff (strLtB a.data b.data = true)
    (((show ∀ as bs : List Char, strLtB as bs = true ↔ List.Lex (· < ·) as bs by
        intro as
        induction as with
        | nil =>
          intro bs
          cases bs with
          | nil => exact ⟨by simp [strLtB], fun h => nomatch h⟩
          | cons b bs => exact ⟨fun _ => .nil, fun _ => rfl⟩
        | cons a as ih =>
          intro bs
          cases bs with
          | nil => exact ⟨by simp [strLtB], fun h => nomatch h⟩
          | cons b bs =>
            by_cases hab : a < b
            · refine iff_of_true ?_ (.rel hab)
              rw [strLtB, if_pos hab]
            · by_cases hba : b < a
              · refine iff_of_false ?_ ?_
                · rw [strLtB, if_neg hab, if_pos hba]
                  simp
                · intro h
                  cases h with
                  | cons h2 => exact absurd hba (lt_irrefl _)
                  | rel h2 => exact hab h2
              · have heq : a = b := le_antisymm (not_lt.mp hba) (not_lt.mp hab)
                subst heq
                rw [strLtB, if_neg hab, if_neg hba]
                constructor
                · intro h
                  exact .cons ((ih bs).mp h)
                · intro h
                  cases h with
                  | cons h2 => exact (ih bs).mpr h2
                  | rel h2 => exact absurd h2 hab) a.data b.data).trans
      (Iff.symm String.lt_iff_toList_lt))

/-- Model of serde_json::Value as produced and consumed by this component.
Numbers are modelled as integers: the component only ever writes i64/u64
values (record_i64/record_u64), and the claims only concern such data. -/
inductive JsonValue where
  | null : JsonValue
  | bool (b : Bool) : JsonValue
  | int (n : Int) : JsonValue
  | str (s : String) : JsonValue
  | arr (xs : List JsonValue) : JsonValue
  | obj (fields : List (String × JsonValue)) : JsonValue
-- Size measure used as parser fuel bound.
mutual
def jsize : JsonValue → Nat
  | .arr xs => 1 + jsizeArr xs
  | .obj fs => 1 + jsizeObj fs
  | _ => 1

def jsizeArr : List JsonValue → Nat
  | [] => 0
  | x :: xs => 1 + jsize x + jsizeArr xs

def jsizeObj : List (String × JsonValue) → Nat
  | [] => 0
  | kv :: fs => 1 + jsize kv.2 + jsizeObj fs
end

/-- Decimal digit character. -/
def digitChar (n : Nat) : Char := Char.ofNat (48 + n)

/-- Lowercase hexadecimal digit character (serde_json writes lowercase hex). -/
def hexDigitChar (n : Nat) : Char :=
  if n < 10 then Char.ofNat (48 + n) else Char.ofNat (87 + n)

/-- Decimal digits of a natural number, most significant first (with a fuel
argument so that the definition evaluates inside the kernel). -/
def natDigitsAux : Nat → Nat → List Char
  | 0, n => [digitChar n]
  | fuel + 1, n =>
    if n < 10 then [digitChar n]
    else natDigitsAux fuel (n / 10) ++ [digitChar (n % 10)]

/-- Decimal digits of a natural number, most significant first. -/
def natDigits (n : Nat) : List Char := natDigitsAux n n

/-- serde_json's escaping of one character inside a JSON string: quote and
backslash get a backslash escape, the five short-escape control characters
get their short escapes, other control characters get a \u00XX escape, and
everything else is written as-is. -/
def escapeChar (c : Char) : List Char :=
  if c = '"' then ['\\', '"']
  else if c = '\\' then ['\\', '\\']
  else if c = '\x08' then ['\\', 'b']
  else if c = '\x09' then ['\\', 't']
  else if c = '\x0a' then ['\\', 'n']
  else if c = '\x0c' then ['\\', 'f']
  else if c = '\x0d' then ['\\', 'r']
  else if c.toNat < 32 then
    ['\\', 'u', '0', '0', hexDigitChar (c.toNat / 16), hexDigitChar (c.toNat % 16)]
  else [c]

/-- Escape every character of a string body. -/
def escList : List Char → List Char
  | [] => []
  | c :: cs => escapeChar c ++ escList cs

/-- Serialized form of a JSON string (quotes included). -/
def serStr (s : String) : List Char := '"' :: escList s.data ++ ['"']

/-- Serialized form of an integer (serde_json writes i64/u64 in decimal). -/
def serInt (n : Int) : List Char :=
  if n < 0 then '-' :: natDigits n.natAbs else natDigits n.toNat

-- Compact serialization, exactly as serde_json's default Serializer writes
-- values (no whitespace).
mutual
def serVal : JsonValue → List Char
  | .null => "null".data
  | .bool true => "true".data
  | .bool false => "false".data
  | .int n => serInt n
  | .str s => serStr s
  | .arr xs => '[' :: serArrItems xs ++ [']']
  | .obj fs => '\x7b' :: serObjItems fs ++ ['\x7d']

def serArrItems : List JsonValue → List Char
  | [] => []
  | [x] => serVal x
  | x :: xs => serVal x ++ ',' :: serArrItems xs

def serObjItems : List (String × JsonValue) → List Char
  | [] => []
  | [kv] => serStr kv.1 ++ ':' :: serVal kv.2
  | kv :: fs => serStr kv.1 ++ ':' :: serVal kv.2 ++ ',' :: serObjItems fs
end

/-- String form of a serialized JSON value. -/
def serValStr (v : JsonValue) : String := String.mk (serVal v)

/-- Insertion into a BTreeMap keyed by strings, represented as an association
list sorted strictly by key: replaces on an equal key (last write wins). -/
def insertSorted (k : String) (v : JsonValue) :
    List (String × JsonValue) → List (String × JsonValue)
  | [] => [(k, v)]
  | (k', v') :: rest =>
    if k < k' then (k, v) :: (k', v') :: rest
    else if k = k' then (k, v) :: rest
    else (k', v') :: insertSorted k v rest

/-- Lookup in an association list (first match). -/
def lookupKey (k : String) : List (String × JsonValue) → Option JsonValue
  | [] => none
  | (k', v) :: rest => if k' = k then some v else lookupKey k rest

/-- Rebuild a BTreeMap from parsed key/value pairs in document order; later
duplicates overwrite earlier ones, exactly like serde_json's Map (a BTreeMap
in the default configuration). -/
def sortObjPairs (l : List (String × JsonValue)) : List (String × JsonValue) :=
  l.foldl (fun m kv => insertSorted kv.1 kv.2 m) []

/-- JSON whitespace recognized by serde_json between tokens. -/
def isWsChar (c : Char) : Bool := c = ' ' || c = '\t' || c = '\n' || c = '\r'

/-- Skip leading whitespace. -/
def ws : List Char → List Char
  | [] => []
  | c :: r => if isWsChar c then ws r else c :: r

/-- Decimal digit test on a character. -/
def isDigitChar (c : Char) : Bool := decide (48 ≤ c.toNat) && decide (c.toNat ≤ 57)

/-- Value of a decimal digit character. -/
def digitVal (c : Char) : Nat := c.toNat - 48

/-- Hexadecimal digit value. -/
def hexVal (c : Char) : Option Nat :=
  if 48 ≤ c.toNat ∧ c.toNat ≤ 57 then some (c.toNat - 48)
  else if 97 ≤ c.toNat ∧ c.toNat ≤ 102 then some (c.toNat - 87)
  else if 65 ≤ c.toNat ∧ c.toNat ≤ 70 then some (c.toNat - 55)
  else none

/-- Consume a run of decimal digits, accumulating their value. -/
def parseDigits (acc : Nat) : List Char → Nat × List Char
  | [] => (acc, [])
  | c :: r => if isDigitChar c then parseDigits (acc * 10 + digitVal c) r else (acc, c :: r)

/-- Parse the JSON integer grammar 0 | [1-9][0-9]* (a lone 0 is not followed
by further digits; a later stray digit is rejected by the caller just as
serde_json rejects it). -/
def parseNumBody : List Char → Option (Nat × List Char)
  | [] => none
  | c :: r =>
    if c = '0' then some (0, r)
    else if isDigitChar c then some (parseDigits 0 (c :: r))
    else none

/-- Translate a single-character JSON escape. -/
def unescChar (e : Char) : Option Char :=
  if e = '"' then some '"'
  else if e = '\\' then some '\\'
  else if e = '/' then some '/'
  else if e = 'b' then some '\x08'
  else if e = 'f' then some '\x0c'
  else if e = 'n' then some '\x0a'
  else if e = 'r' then some '\x0d'
  else if e = 't' then some '\x09'
  else none

/-- Parse a JSON string body after the opening quote, unescaping; raw control
characters are rejected, as serde_json rejects them. Lone surrogate escapes
are rejected (serde_json only accepts them in valid pairs, which this
component never writes). -/
def parseStringBody : List Char → Option (List Char × List Char)
  | [] => none
  | c :: r =>
    if c = '"' then some ([], r)
    else if c = '\\' then
      match r with
      | [] => none
      | e :: r2 =>
        if e = 'u' then
          match r2 with
          | h1 :: h2 :: h3 :: h4 :: r3 =>
            match hexVal h1, hexVal h2, hexVal h3, hexVal h4 with
            | some a, some b, some c2, some d =>
              let n := ((a * 16 + b) * 16 + c2) * 16 + d
              if 0xD800 ≤ n ∧ n < 0xE000 then none
              else (parseStringBody r3).map (fun p => (Char.ofNat n :: p.1, p.2))
            | _, _, _, _ => none
          | _ => none
        else
          match unescChar e with
          | some ec => (parseStringBody r2).map (fun p => (ec :: p.1, p.2))
          | none => none
    else if c.toNat < 32 then none
    else (parseStringBody r).map (fun p => (c :: p.1, p.2))

/-- Parse a borrowed-string key, mirroring deserialization of a Rust &str map
key: serde_json can only hand out a borrowed string when the JSON text
contains no escape sequence, so any backslash makes the whole parse fail. -/
def parseKeyNE : List Char → Option (List Char × List Char)
  | [] => none
  | c :: r =>
    if c = '"' then some ([], r)
    else if c = '\\' then none
    else if c.toNat < 32 then none
    else (parseKeyNE r).map (fun p => (c :: p.1, p.2))

-- Fueled recursive-descent parser for JSON values, mirroring serde_json's
-- from_str for Value: whitespace is allowed between tokens, objects become
-- sorted key-deduplicated maps.
mutual
def parseValue : Nat → List Char → Option (JsonValue × List Char)
  | 0, _ => none
  | fuel + 1, s =>
    match ws s with
    | [] => none
    | c :: r =>
      if c = 'n' then
        match r with
        | 'u' :: 'l' :: 'l' :: r2 => some (.null, r2)
        | _ => none
      else if c = 't' then
        match r with
        | 'r' :: 'u' :: 'e' :: r2 => some (.bool true, r2)
        | _ => none
      else if c = 'f' then
        match r with
        | 'a' :: 'l' :: 's' :: 'e' :: r2 => some (.bool false, r2)
        | _ => none
      else if c = '"' then
        (parseStringBody r).map (fun p => (.str (String.mk p.1), p.2))
      else if c = '-' then
        (parseNumBody r).map (fun p => (.int (-(p.1 : Int)), p.2))
      else if c = '[' then
        if (ws r).head? = some ']' then some (.arr [], (ws r).tail)
        else (parseArrItems fuel (ws r)).map (fun p => (.arr p.1, p.2))
      else if c = '\x7b' then
        if (ws r).head? = some '\x7d' then some (.obj [], (ws r).tail)
        else (parseObjItems fuel (ws r)).map (fun p => (.obj (sortObjPairs p.1), p.2))
      else if isDigitChar c then
        (parseNumBody (c :: r)).map (fun p => (.int (p.1 : Int), p.2))
      else none

def parseArrItems : Nat → List Char → Option (List JsonValue × List Char)
  | 0, _ => none
  | fuel + 1, s => do
    let (v, r) ← parseValue fuel s
    match ws r with
    | ',' :: r2 => (parseArrItems fuel r2).map (fun p => (v :: p.1, p.2))
    | ']' :: r2 => some ([v], r2)
    | _ => none

def parseObjItems : Nat → List Char → Option (List (String × JsonValue) × List Char)
  | 0, _ => none
  | fuel + 1, s =>
    match ws s with
    | '"' :: r => do
      let (k, r2) ← parseStringBody r
      match ws r2 with
      | ':' :: r3 => do
        let (v, r4) ← parseValue fuel r3
        match ws r4 with
        | ',' :: r5 => (parseObjItems fuel r5).map (fun p => ((String.mk k, v) :: p.1, p.2))
        | '\x7d' :: r5 => some ([(String.mk k, v)], r5)
        | _ => none
      | _ => none
    | _ => none
end

/-- Model of serde_json::from_str::<Value>: parse one value, allow trailing
whitespace, reject trailing input. -/
def parseJson (s : String) : Option JsonValue :=
  match parseValue (s.data.length + 1) s.data with
  | some (v, rest) => if ws rest = [] then some v else none
  | none => none

/-- Object members with borrowed-string keys, mirroring deserialization of
BTreeMap<&str, Value>: a key containing any escape sequence fails. -/
def parseBorrowedItems : Nat → List Char → Option (List (String × JsonValue) × List Char)
  | 0, _ => none
  | fuel + 1, s =>
    match ws s with
    | '"' :: r => do
      let (k, r2) ← parseKeyNE r
      match ws r2 with
      | ':' :: r3 => do
        let (v, r4) ← parseValue fuel r3
        match ws r4 with
        | ',' :: r5 => (parseBorrowedItems fuel r5).map (fun p => ((String.mk k, v) :: p.1, p.2))
        | '\x7d' :: r5 => some ([(String.mk k, v)], r5)
        | _ => none
      | _ => none
    | _ => none

/-- Model of serde_json::from_str::<BTreeMap<&str, Value>> as used by
JsonFields::add_fields: the input must be a single JSON object whose keys
contain no escape sequences; members are collected into a BTreeMap (sorted,
later duplicates overwriting earlier ones). -/
def parseBorrowedMap (s : String) : Option (List (String × JsonValue)) :=
  match ws s.data with
  | '\x7b' :: r =>
    match
      (if (ws r).head? = some '\x7d' then some (([] : List (String × JsonValue)), (ws r).tail)
       else parseBorrowedItems (s.data.length + 1) (ws r)) with
    | some (prs, rest) =>
      if ws rest = [] then some (sortObjPairs prs) else none
    | none => none
  | _ => none

/-- A typed field value as delivered through the visitor entry points of
tracing_core::field::Visit: signed integer, unsigned integer, boolean,
string, or the catch-all debug arm carrying the Debug-rendered text. -/
inductive FieldValue where
  | i64 (n : Int) : FieldValue
  | u64 (n : Nat) : FieldValue
  | bool (b : Bool) : FieldValue
  | str (s : String) : FieldValue
  | debug (s : String) : FieldValue

/-- JsonVisitor::record_i64: insert the value into the BTreeMap under the
field's name, unmodified. -/
def record_i64 (m : List (String × JsonValue)) (field : String) (value : Int) :
    List (String × JsonValue) :=
  insertSorted field (.int value) m

/-- JsonVisitor::record_u64. -/
def record_u64 (m : List (String × JsonValue)) (field : String) (value : Nat) :
    List (String × JsonValue) :=
  insertSorted field (.int (value : Int)) m

/-- JsonVisitor::record_bool. -/
def record_bool (m : List (String × JsonValue)) (field : String) (value : Bool) :
    List (String × JsonValue) :=
  insertSorted field (.bool value) m

/-- JsonVisitor::record_str. -/
def record_str (m : List (String × JsonValue)) (field : String) (value : String) :
    List (String × JsonValue) :=
  insertSorted field (.str value) m

/-- str::starts_with, as a structural test on the character data (the
library's String.startsWith reduces through loops the kernel cannot
evaluate). -/
def strStartsWith (s p : String) : Bool := p.data.isPrefixOf s.data

/-- JsonVisitor::record_debug: when the tracing-log feature is compiled in,
names with the "log." metadata namespace are skipped; a "r#" raw-identifier
marker is stripped (the name's first two bytes, both ASCII, so dropping two
characters); the Debug-rendered text is stored as a JSON string. -/
def record_debug (tracingLog : Bool) (m : List (String × JsonValue)) (field : String)
    (rendered : String) : List (String × JsonValue) :=
  if tracingLog && strStartsWith field "log." then m
  else if strStartsWith field "r#" then insertSorted (field.drop 2) (.str rendered) m
  else insertSorted field (.str rendered) m

/-- Dispatch one recorded field to the matching visitor entry point. -/
def recordOne (tracingLog : Bool) (m : List (String × JsonValue))
    (f : String × FieldValue) : List (String × JsonValue) :=
  match f.2 with
  | .i64 n => record_i64 m f.1 n
  | .u64 n => record_u64 m f.1 n
  | .bool b => record_bool m f.1 b
  | .str s => record_str m f.1 s
  | .debug s => record_debug tracingLog m f.1 s

/-- Run the visitor over a record of fields (fields.record(&mut v)),
starting from the given seed map. -/
def recordAll (tracingLog : Bool) (fields : List (String × FieldValue))
    (m : List (String × JsonValue)) : List (String × JsonValue) :=
  fields.foldl (recordOne tracingLog) m

/-- VisitOutput::finish for JsonVisitor: serialize the BTreeMap in its
iteration order as one JSON object appended to the writer. -/
def finishStr (m : List (String × JsonValue)) : String := serValStr (.obj m)

/-- JsonFields::format_fields: run a fresh visitor over the fields and
serialize (the writer starts empty here). -/
def format_fields (tracingLog : Bool) (fields : List (String × FieldValue)) : String :=
  finishStr (recordAll tracingLog fields [])

/-- Failure of a formatting operation: an fmt::Error returned to the caller,
or a Rust panic (which unwinds and is not caught anywhere in this file's
code, so it is kept distinct from the error monad's recoverable errors). -/
inductive FmtErr where
  | fmtError : FmtErr
  | panicked (msg : String) : FmtErr

/-- JsonFields::add_fields: if the current text is empty, the fresh visitor
writes into it directly (same as format_fields); otherwise the current text
is parsed as a BTreeMap with borrowed keys, the visitor is seeded with it,
the new fields are recorded, and the map is re-serialized. A parse failure
is mapped to fmt::Error and leaves the current text unmodified (the
assignment to current happens only after a successful finish). Returns the
operation result together with the resulting stored text. -/
def add_fields (tracingLog : Bool) (current : String)
    (fields : List (String × FieldValue)) : Except FmtErr Unit × String :=
  if current = "" then (.ok (), format_fields tracingLog fields)
  else
    match parseBorrowedMap current with
    | none => (.error .fmtError, current)
    | some m => (.ok (), finishStr (recordAll tracingLog fields m))

/-- Apply a sequence of field-record batches to one span's stored text via
add_fields; the stored text after a failing call is the unchanged old text. -/
def applyBatches (tracingLog : Bool) (current : String)
    (batches : List (List (String × FieldValue))) : String :=
  batches.foldl (fun cur b => (add_fields tracingLog cur b).2) current

/-- tracing_serde's SerdeMapVisitor value mapping: each typed value is
serialized with its native JSON type and the debug arm as a string; names
are not normalized and entries stream in recording order. -/
def serdeFieldJson : FieldValue → JsonValue
  | .i64 n => .int n
  | .u64 n => .int n
  | .bool b => .bool b
  | .str s => .str s
  | .debug s => .str s

/-- Entries written by tracing_serde::SerdeMapVisitor for an event's own
fields (used by format_event): recording order, duplicate names preserved. -/
def eventEntries (fields : List (String × FieldValue)) : List (String × JsonValue) :=
  fields.map (fun f => (f.1, serdeFieldJson f.2))

/-- Per-span data visible to the formatter: the span's declared name and the
FormattedFields text blob stored in its extension slot. -/
structure SpanData where
  name : String
  fields : String

/-- The fixed prefix of the panic message raised for malformed span fields. -/
def panicMsg (spanName : String) (err : String) : String :=
  "span '" ++ spanName ++ "' had malformed fields! this is a bug.\n  error: " ++ err

/-- Display text of a serde_json parse error (the exact wording is
serde_json's; the claims only require that the parse error's text is what
gets embedded). -/
def parseErrMsg (_s : String) : String := "invalid JSON"

/-- SerializableSpan::serialize_formatted_fields: parse the span's stored
blob; on an object, emit each field (optionally namespaced as
"name.field" via Key); on valid-but-non-object JSON, panic in a debug
build, else emit the value under "field" plus a "field_error" entry; on a
parse error, panic in a debug build, else emit only "field_error" with the
error's text. -/
def sffEntries (dbg ns : Bool) (sp : SpanData) :
    Except FmtErr (List (String × JsonValue)) :=
  match parseJson sp.fields with
  | some (.obj fs) =>
    .ok (fs.map (fun kv => (if ns then sp.name ++ "." ++ kv.1 else kv.1, kv.2)))
  | some v =>
    if dbg then .error (.panicked (panicMsg sp.name "invalid JSON object"))
    else .ok [("field", v), ("field_error", .str "field was no a valid object")]
  | none =>
    if dbg then .error (.panicked (panicMsg sp.name (parseErrMsg sp.fields)))
    else .ok [("field_error", .str (parseErrMsg sp.fields))]

/-- SerializableSpan::serialize: the span's formatted fields (not
namespaced) followed by a "name" entry, as one JSON object. -/
def spanEntryValue (dbg : Bool) (sp : SpanData) : Except FmtErr JsonValue :=
  (sffEntries dbg false sp).map (fun es => .obj (es ++ [("name", .str sp.name)]))

/-- MergeParentFieldsMap::merge_parent_fields: nothing when there is no
current span; otherwise the formatted fields of the current span followed by
each parent up to the root, namespaced when requested. The chain is stored
leaf first (current span at the head, root last). -/
def mergeParentEntries (dbg ns : Bool) : List SpanData →
    Except FmtErr (List (String × JsonValue))
  | [] => .ok []
  | sp :: rest => do
    let es ← sffEntries dbg ns sp
    let tail ← mergeParentEntries dbg ns rest
    return es ++ tail

/-- Serialize of MergeParentFieldsMap: the event's own fields (via
SerdeMapVisitor) followed by the merged parent fields. -/
def mergeParentFieldsMapEntries (dbg ns : Bool) (ev : List (String × FieldValue))
    (chain : List SpanData) : Except FmtErr (List (String × JsonValue)) :=
  (mergeParentEntries dbg ns chain).map (fun es => eventEntries ev ++ es)

/-- SerializableContext::serialize: the span objects of the whole scope,
root first (the reverse of the leaf-first chain). -/
def spanListValues (dbg : Bool) : List SpanData → Except FmtErr (List JsonValue)
  | [] => .ok []
  | sp :: rest => do
    let v ← spanEntryValue dbg sp
    let vs ← spanListValues dbg rest
    return v :: vs

def spansValue (dbg : Bool) (chain : List SpanData) : Except FmtErr JsonValue :=
  (spanListValues dbg chain.reverse).map .arr

/-- Identifies one write in format_event's fixed emission sequence; the
output sink is external and may reject any write, which is modelled by an
oracle over these identifiers. -/
inductive StepId where
  | timer : StepId
  | timestamp : StepId
  | level : StepId
  | fields : StepId
  | merged : StepId
  | target : StepId
  | span : StepId
  | spans : StepId
  | threadName : StepId
  | threadId : StepId
  | endObj : StepId
  | newline : StepId
deriving DecidableEq

/-- One emission step: its identifier, the entries its write produces
(or a panic raised while producing them), and whether a write error on it is
swallowed (only the "span" entry's write has its result discarded by
unwrap_or). -/
structure Step where
  sid : StepId
  act : Except FmtErr (List (String × JsonValue))
  swallow : Bool

/-- Run the emission steps in order against a write-failure oracle. A panic
always propagates (unwinding is not caught). A write failure on a normal
step propagates as fmt::Error; one on a swallowing step is discarded and the
remaining steps still run. -/
def runSteps (fail : StepId → Bool) : List Step → Except FmtErr (List (String × JsonValue))
  | [] => .ok []
  | st :: rest =>
    if st.swallow then
      match st.act with
      | .error (.panicked m) => .error (.panicked m)
      | .error .fmtError => runSteps fail rest
      | .ok es =>
        if fail st.sid then runSteps fail rest
        else (runSteps fail rest).map (fun tail => es ++ tail)
    else
      if fail st.sid then .error .fmtError
      else
        match st.act with
        | .error e => .error e
        | .ok es => (runSteps fail rest).map (fun tail => es ++ tail)

/-- The Json formatter configuration (flatten_event, display_current_span,
display_span_list, merge_parent_fields, namespace_parent_fields). -/
structure Json where
  flatten_event : Bool
  display_current_span : Bool
  display_span_list : Bool
  merge_parent_fields : Bool
  namespace_parent_fields : Bool

/-- The Default impl for Json. -/
def Json.default : Json :=
  { flatten_event := false, display_current_span := true, display_span_list := true,
    merge_parent_fields := false, namespace_parent_fields := true }

/-- The surrounding Format's switches used by format_event. -/
structure FormatCfg where
  format : Json
  display_target : Bool
  display_thread_name : Bool
  display_thread_id : Bool

/-- A singleton step list gated by a configuration flag. -/
def optStep (b : Bool) (st : Step) : List Step := if b then [st] else []

/-- The field-emission steps of format_event: flattened event fields at the
root (plus, if merging, the parent fields also at the root), or one "fields"
entry holding either the merged map or the event's own field map. -/
def fieldsSteps (dbg : Bool) (fc : Json) (ev : List (String × FieldValue))
    (chain : List SpanData) : List Step :=
  if fc.flatten_event then
    { sid := .fields, act := .ok (eventEntries ev), swallow := false } ::
      optStep fc.merge_parent_fields
        { sid := .merged, act := mergeParentEntries dbg fc.namespace_parent_fields chain,
          swallow := false }
  else if fc.merge_parent_fields then
    [{ sid := .fields,
       act := (mergeParentFieldsMapEntries dbg fc.namespace_parent_fields ev chain).map
         (fun inner => [("fields", .obj inner)]),
       swallow := false }]
  else
    [{ sid := .fields, act := .ok [("fields", .obj (eventEntries ev))], swallow := false }]

/-- The "span" emission step: only when a current span exists and
display_current_span is set; its write result is discarded (unwrap_or). -/
def spanStep (dbg : Bool) (fc : Json) (chain : List SpanData) : List Step :=
  match chain.head? with
  | some sp =>
    optStep fc.display_current_span
      { sid := .span, act := (spanEntryValue dbg sp).map (fun v => [("span", v)]),
        swallow := true }
  | none => []

/-- The "spans" emission step: only when display_span_list is set and a
current span exists. -/
def spansStep (dbg : Bool) (fc : Json) (chain : List SpanData) : List Step :=
  if fc.display_span_list && !chain.isEmpty then
    [{ sid := .spans, act := (spansValue dbg chain).map (fun v => [("spans", v)]),
       swallow := false }]
  else []

/-- The thread emission steps: threadName when enabled (with the thread-id
string as fallback exactly when the thread is unnamed and id display is
off), then threadId when enabled. -/
def threadSteps (dn di : Bool) (threadName? : Option String) (tid : String) : List Step :=
  (if dn then
    match threadName? with
    | some n => [{ sid := .threadName, act := .ok [("threadName", .str n)], swallow := false }]
    | none =>
      if !di then
        [{ sid := .threadName, act := .ok [("threadName", .str tid)], swallow := false }]
      else []
   else []) ++
  (if di then [{ sid := .threadId, act := .ok [("threadId", .str tid)], swallow := false }] else [])

/-- The thread entries emitted by the formatter (the entries of the thread
steps, in order). -/
def threadEntries (dn di : Bool) (threadName? : Option String) (tid : String) :
    List (String × JsonValue) :=
  ((threadSteps dn di threadName? tid).map
    (fun st => match st.act with | .ok es => es | .error _ => [])).flatten

/-- The full emission sequence of format_event: timer rendering, timestamp,
level, the field steps, target, span, spans, thread data, the closing of the
object and the trailing newline. The chain lists the active spans leaf
first; it is empty when the event fired outside any span. -/
def eventSteps (dbg : Bool) (cfg : FormatCfg) (timestamp level target : String)
    (ev : List (String × FieldValue)) (chain : List SpanData)
    (threadName? : Option String) (tid : String) : List Step :=
  { sid := .timer, act := .ok [], swallow := false } ::
  { sid := .timestamp, act := .ok [("timestamp", .str timestamp)], swallow := false } ::
  { sid := .level, act := .ok [("level", .str level)], swallow := false } ::
  (fieldsSteps dbg cfg.format ev chain ++
   optStep cfg.display_target
     { sid := .target, act := .ok [("target", .str target)], swallow := false } ++
   spanStep dbg cfg.format chain ++
   spansStep dbg cfg.format chain ++
   threadSteps cfg.display_thread_name cfg.display_thread_id threadName? tid ++
   [{ sid := .endObj, act := .ok [], swallow := false },
    { sid := .newline, act := .ok [], swallow := false }])

/-- format_event for Format<Json, T>: run the emission sequence, producing
the root object's entries (in emission order, duplicate keys preserved) or
the propagated failure. -/
def format_event (dbg : Bool) (cfg : FormatCfg) (fail : StepId → Bool)
    (timestamp level target : String) (ev : List (String × FieldValue))
    (chain : List SpanData) (threadName? : Option String) (tid : String) :
    Except FmtErr (List (String × JsonValue)) :=
  runSteps fail (eventSteps dbg cfg timestamp level target ev chain threadName? tid)

/-- The formatted line for one event: the root object's compact JSON text
followed by exactly one newline. -/
def formatEventLine (dbg : Bool) (cfg : FormatCfg) (fail : StepId → Bool)
    (timestamp level target : String) (ev : List (String × FieldValue))
    (chain : List SpanData) (threadName? : Option String) (tid : String) :
    Except FmtErr String :=
  (format_event dbg cfg fail timestamp level target ev chain threadName? tid).map
    (fun es => serValStr (.obj es) ++ "\n")

/-- Modelled from the spec: the fmt subscriber that calls format_event (its
code is outside this repository slice) hands the formatted buffer to the
output stream only when formatting succeeded, so an event whose formatting
failed is entirely absent from the stream. -/
def emitEventToStream (dbg : Bool) (cfg : FormatCfg) (fail : StepId → Bool)
    (timestamp level target : String) (ev : List (String × FieldValue))
    (chain : List SpanData) (threadName? : Option String) (tid : String) :
    Option String :=
  match formatEventLine dbg cfg fail timestamp level target ev chain threadName? tid with
  | .ok line => some line
  | .error _ => none

/-- io::Error kinds produced by the WriteAdaptor bridge. -/
inductive IoErrKind where
  | invalidData : IoErrKind
  | other : IoErrKind

/-- UTF-8 continuation byte test. -/
def utf8Cont (b : Nat) : Bool := 128 ≤ b && b ≤ 191

/-- UTF-8 validation and decoding of a byte sequence, per the standard
library's str::from_utf8 (overlong encodings, surrogates and values above
U+10FFFF rejected through the lead/continuation range restrictions). -/
def utf8Decode : List Nat → Option (List Char)
  | [] => some []
  | b1 :: rest =>
    if b1 ≤ 0x7F then (utf8Decode rest).map (fun cs => Char.ofNat b1 :: cs)
    else if 0xC2 ≤ b1 ∧ b1 ≤ 0xDF then
      match rest with
      | b2 :: r2 =>
        if utf8Cont b2 then
          (utf8Decode r2).map (fun cs => Char.ofNat ((b1 - 0xC0) * 64 + (b2 - 0x80)) :: cs)
        else none
      | [] => none
    else if 0xE0 ≤ b1 ∧ b1 ≤ 0xEF then
      match rest with
      | b2 :: b3 :: r3 =>
        if (if b1 = 0xE0 then 160 ≤ b2 ∧ b2 ≤ 191
            else if b1 = 0xED then 128 ≤ b2 ∧ b2 ≤ 159
            else (128 ≤ b2 ∧ b2 ≤ 191 : Prop)) ∧ utf8Cont b3 = true then
          (utf8Decode r3).map (fun cs =>
            Char.ofNat ((b1 - 0xE0) * 4096 + (b2 - 0x80) * 64 + (b3 - 0x80)) :: cs)
        else none
      | _ => none
    else if 0xF0 ≤ b1 ∧ b1 ≤ 0xF4 then
      match rest with
      | b2 :: b3 :: b4 :: r4 =>
        if (if b1 = 0xF0 then 144 ≤ b2 ∧ b2 ≤ 191
            else if b1 = 0xF4 then 128 ≤ b2 ∧ b2 ≤ 143
            else (128 ≤ b2 ∧ b2 ≤ 191 : Prop)) ∧ utf8Cont b3 = true ∧ utf8Cont b4 = true then
          (utf8Decode r4).map (fun cs =>
            Char.ofNat ((b1 - 0xF0) * 262144 + (b2 - 0x80) * 4096 + (b3 - 0x80) * 64 + (b4 - 0x80)) :: cs)
        else none
      | _ => none
    else none

/-- io::Write for WriteAdaptor: validate the buffer as UTF-8 (reporting an
InvalidData error on failure), forward the text to the fmt writer (mapping
its failure to an Other error), and report the full byte count written. -/
def writeAdaptorWrite (w : String → Except Unit Unit) (buf : List Nat) :
    Except IoErrKind Nat :=
  match utf8Decode buf with
  | none => .error .invalidData
  | some cs =>
    match w (String.mk cs) with
    | .error _ => .error .other
    | .ok _ => .ok buf.length

/-- What can legally follow a serialized value inside a larger serialized
term: nothing, or a separator or closing bracket. Needed so that number
parsing stops at the right place. -/
def GoodRest (r : List Char) : Prop :=
  match r with
  | [] => True
  | c :: _ => c = ',' ∨ c = '\x7d' ∨ c = ']'

/-- Characters that serde_json writes without any escape. -/
def noEscChar (c : Char) : Bool :=
  decide (c ≠ '"') && decide (c ≠ '\\') && decide (32 ≤ c.toNat)

/-- A key made only of escape-free characters. -/
def noEscKey (s : String) : Bool := s.data.all noEscChar

/-- The invariant of the visitor's BTreeMap: keys strictly increasing. -/
def SortedKeys (m : List (String × JsonValue)) : Prop :=
  List.Pairwise (fun a b => a.1 < b.1) m

/-- Boolean form of the map invariant (for concrete evaluation). -/
def keysSortedB : List (String × JsonValue) → Bool
  | [] => true
  | [_] => true
  | a :: b :: t => decide (a.1 < b.1) && keysSortedB (b :: t)

-- Canonical values: every object inside is sorted by key (as serde_json's
-- BTreeMap-backed Value guarantees for anything it produces).
mutual
def canV : JsonValue → Bool
  | .obj fs => keysSortedB fs && canFs fs
  | .arr xs => canArr xs
  | _ => true

def canArr : List JsonValue → Bool
  | [] => true
  | x :: xs => canV x && canArr xs

def canFs : List (String × JsonValue) → Bool
  | [] => true
  | kv :: fs => canV kv.2 && canFs fs
end

/-- The key under which one recorded field is stored by the JsonVisitor, if
any: the debug arm drops "log." fields (under the tracing-log feature) and
strips a "r#" marker; all other arms store the name as given. -/
def storedKey (tracingLog : Bool) (f : String × FieldValue) : Option String :=
  match f.2 with
  | .debug _ =>
    if tracingLog && strStartsWith f.1 "log." then none
    else if strStartsWith f.1 "r#" then some (f.1.drop 2) else some f.1
  | _ => some f.1

/-- Whether a field's stored key (if stored) needs no JSON escaping. -/
def storedKeyOkB (tracingLog : Bool) (f : String × FieldValue) : Bool :=
  match storedKey tracingLog f with
  | none => true
  | some k => noEscKey k

/-- The fields of a span blob that parses as a JSON object (the good case of
serialize_formatted_fields). -/
def spanObjFields (sp : SpanData) : List (String × JsonValue) :=
  match parseJson sp.fields with
  | some (.obj fs) => fs
  | _ => []

/-- The entries serialize_formatted_fields emits for a healthy span:
optionally namespaced with the span's name and a dot, as Key does. -/
def nsEntries (ns : Bool) (sp : SpanData) : List (String × JsonValue) :=
  (spanObjFields sp).map (fun kv => (if ns then sp.name ++ "." ++ kv.1 else kv.1, kv.2))

/-- Whether a span's stored blob parses as a JSON object. -/
def spanHealthy (sp : SpanData) : Bool :=
  match parseJson sp.fields with
  | some (.obj _) => true
  | _ => false

theorem natDigitsAux_congr : ∀ (n f1 f2 : Nat), n ≤ f1 → n ≤ f2 →
    natDigitsAux f1 n = natDigitsAux f2 n := by
  intro n
  induction n using Nat.strong_induction_on with
  | _ n ih =>
    intro f1 f2 h1 h2
    match f1, f2 with
    | 0, 0 => rfl
    | 0, f2 + 1 =>
      have h0 : n = 0 := by omega
      subst h0
      rw [natDigitsAux, natDigitsAux, if_pos (by omega)]
    | f1 + 1, 0 =>
      have h0 : n = 0 := by omega
      subst h0
      rw [natDigitsAux, natDigitsAux, if_pos (by omega)]
    | f1 + 1, f2 + 1 =>
      rw [natDigitsAux, natDigitsAux]
      by_cases h : n < 10
      · rw [if_pos h, if_pos h]
      · rw [if_neg h, if_neg h]
        have hd : n / 10 < n := Nat.div_lt_self (by omega) (by omega)
        rw [ih (n / 10) hd f1 f2 (by omega) (by omega)]

theorem natDigits_eq (n : Nat) : natDigits n =
    if n < 10 then [digitChar n] else natDigits (n / 10) ++ [digitChar (n % 10)] := by
  cases n with
  | zero => rw [natDigits, natDigitsAux, if_pos (by omega)]
  | succ m =>
    rw [natDigits, natDigitsAux]
    by_cases h : m + 1 < 10
    · rw [if_pos h, if_pos h]
    · rw [if_neg h, if_neg h]
      have hd : (m + 1) / 10 < m + 1 := Nat.div_lt_self (by omega) (by omega)
      rw [natDigits, natDigitsAux_congr ((m + 1) / 10) m ((m + 1) / 10) (by omega) (by omega)]

/-- Characters with equal scalar values are equal. -/
theorem charToNat_inj {c d : Char} (h : c.toNat = d.toNat) : c = d := by
  have h2 := congrArg Char.ofNat h
  rwa [Char.ofNat_toNat, Char.ofNat_toNat] at h2

/-- Bounds extracted from the digit test. -/
theorem isDigitChar_bounds {c : Char} (h : isDigitChar c = true) :
    48 ≤ c.toNat ∧ c.toNat ≤ 57 := by
  simp [isDigitChar] at h
  exact h

/-- A decimal digit character is not a whitespace character. -/
theorem isWsChar_of_digit {c : Char} (h : isDigitChar c = true) : isWsChar c = false := by
  cases hb : isWsChar c with
  | false => rfl
  | true =>
    exfalso
    simp only [isWsChar, Bool.or_eq_true, decide_eq_true_eq] at hb
    rcases hb with ((h2 | h2) | h2) | h2 <;> (subst h2; exact absurd h (by decide))

/-- A decimal digit character is none of the parser's dispatch literals. -/
theorem digit_ne_lits {c : Char} (h : isDigitChar c = true) :
    (c = 'n') = False ∧ (c = 't') = False ∧ (c = 'f') = False ∧ (c = '"') = False ∧
    (c = '-') = False ∧ (c = '[') = False ∧ (c = '\x7b') = False ∧
    (c = ']') = False ∧ (c = '\x7d') = False ∧ (c = ':') = False ∧ (c = ',') = False := by
  refine ⟨?_, ?_, ?_, ?_, ?_, ?_, ?_, ?_, ?_, ?_, ?_⟩ <;>
    (apply eq_false; intro he; subst he; exact absurd h (by decide))

/-- Skipping whitespace is the identity on a non-whitespace head. -/
theorem ws_cons {c : Char} {r : List Char} (h : isWsChar c = false) :
    ws (c :: r) = c :: r := by
  simp [ws, h]

/-- Every serialized value starts with a character that is neither
whitespace nor a closing bracket. -/
theorem serValHead (v : JsonValue) :
    ∃ c t, serVal v = c :: t ∧ isWsChar c = false ∧ (c = ']') = False ∧ (c = '\x7d') = False := by
  cases v with
  | null => refine ⟨'n', _, rfl, ?_, ?_, ?_⟩ <;> decide
  | bool b =>
    cases b with
    | false => refine ⟨'f', _, rfl, ?_, ?_, ?_⟩ <;> decide
    | true => refine ⟨'t', _, rfl, ?_, ?_, ?_⟩ <;> decide
  | str s => refine ⟨'"', _, rfl, ?_, ?_, ?_⟩ <;> decide
  | arr xs => refine ⟨'[', _, rfl, ?_, ?_, ?_⟩ <;> decide
  | obj fs => refine ⟨'\x7b', _, rfl, ?_, ?_, ?_⟩ <;> decide
  | int n =>
    show ∃ c t, serInt n = c :: t ∧ _
    rw [serInt]
    split
    · refine ⟨'-', _, rfl, ?_, ?_, ?_⟩ <;> decide
    · have h10 : ∀ m : Nat, ∃ c t, natDigits m = c :: t ∧ isDigitChar c = true := by
        intro m
        induction m using Nat.strong_induction_on with
        | _ m ih =>
          rw [natDigits_eq]
          split
          · next hlt =>
            refine ⟨digitChar m, [], rfl, ?_⟩
            interval_cases m <;> decide
          · next hlt =>
            obtain ⟨c, t, he, hd⟩ := ih (m / 10) (Nat.div_lt_self (by omega) (by omega))
            exact ⟨c, t ++ [digitChar (m % 10)], by rw [he]; rfl, hd⟩
      obtain ⟨c, t, he, hd⟩ := h10 n.toNat
      obtain ⟨-, -, -, -, -, -, -, h8, h9, -, -⟩ := digit_ne_lits hd
      exact ⟨c, t, he, isWsChar_of_digit hd, h8, h9⟩

/-- The digit list of a natural number: head shape, digit property, and a
nonzero leading digit for positive numbers. -/
theorem natDigits_spec (n : Nat) :
    ∃ c t, natDigits n = c :: t ∧ isDigitChar c = true ∧ (1 ≤ n → (c = '0') = False) := by
  induction n using Nat.strong_induction_on with
  | _ n ih =>
    rw [natDigits_eq]
    split
    · next hlt =>
      refine ⟨digitChar n, [], rfl, ?_, ?_⟩
      · interval_cases n <;> decide
      · intro h1
        apply eq_false
        intro he
        interval_cases n <;> exact absurd he (by decide)
    · next hlt =>
      obtain ⟨c, t, he, hd, hz⟩ := ih (n / 10) (Nat.div_lt_self (by omega) (by omega))
      refine ⟨c, t ++ [digitChar (n % 10)], by rw [he]; rfl, hd, fun _ => hz (by omega)⟩

/-- Consuming digits stops at a non-digit (or the end). -/
theorem parseDigits_stop (acc : Nat) {r : List Char}
    (h : r = [] ∨ ∃ c t, r = c :: t ∧ isDigitChar c = false) :
    parseDigits acc r = (acc, r) := by
  rcases h with h | ⟨c, t, he, hd⟩
  · subst h; rfl
  · subst he; simp [parseDigits, hd]

/-- Running the digit consumer over a serialized number shifts it into the
accumulator. -/
theorem parseDigits_natDigits (n : Nat) : ∀ acc rest,
    parseDigits acc (natDigits n ++ rest) =
      parseDigits (acc * 10 ^ (natDigits n).length + n) rest := by
  induction n using Nat.strong_induction_on with
  | _ n ih =>
    intro acc rest
    rw [natDigits_eq]
    split
    · next hlt =>
      have hd : isDigitChar (digitChar n) = true := by interval_cases n <;> decide
      have hv : digitVal (digitChar n) = n := by interval_cases n <;> decide
      simp [parseDigits, hd, hv]
    · next hlt =>
      rw [List.append_assoc, List.singleton_append, ih (n / 10) (Nat.div_lt_self (by omega) (by omega))]
      have hd : isDigitChar (digitChar (n % 10)) = true := by
        have : n % 10 < 10 := Nat.mod_lt _ (by omega)
        interval_cases h : n % 10 <;> simp_all <;> decide
      have hv : digitVal (digitChar (n % 10)) = n % 10 := by
        have : n % 10 < 10 := Nat.mod_lt _ (by omega)
        interval_cases h : n % 10 <;> simp_all <;> decide
      simp only [parseDigits, hd, if_pos, hv, List.length_append, List.length_cons,
        List.length_nil]
      congr 1
      have hmod := Nat.div_add_mod n 10
      have hlen : (natDigits (n / 10)).length + (0 + 1) = (natDigits (n / 10)).length + 1 := by omega
      rw [hlen, pow_succ]
      set L := (10 : Nat) ^ (natDigits (n / 10)).length
      ring_nf
      omega

theorem goodRest_stop {r : List Char} (h : GoodRest r) :
    r = [] ∨ ∃ c t, r = c :: t ∧ isDigitChar c = false := by
  match r with
  | [] => exact Or.inl rfl
  | c :: t =>
    rcases h with h2 | h2 | h2 <;> (subst h2; exact Or.inr ⟨_, t, rfl, by decide⟩)

theorem goodRest_ne_digit {c : Char} {t : List Char} (h : GoodRest (c :: t)) :
    isDigitChar c = false := by
  rcases h with h2 | h2 | h2 <;> (subst h2; decide)

/-- Parsing the serialized digits of a natural number yields it back. -/
theorem parseNum_natDigits (n : Nat) {rest : List Char} (h : GoodRest rest) :
    parseNumBody (natDigits n ++ rest) = some (n, rest) := by
  by_cases h0 : n = 0
  · subst h0
    have e : natDigits 0 = ['0'] := by
      rw [natDigits_eq]
      norm_num
      decide
    rw [e]
    simp [parseNumBody]
  · obtain ⟨c, t, he, hd, hz⟩ := natDigits_spec n
    have hz2 := hz (by omega)
    rw [he, List.cons_append]
    have e2 : parseNumBody (c :: (t ++ rest)) = some (parseDigits 0 (c :: (t ++ rest))) := by
      simp [parseNumBody, hz2, hd]
    rw [e2, ← List.cons_append, ← he, parseDigits_natDigits]
    simp only [Nat.zero_mul, Nat.zero_add]
    rw [parseDigits_stop _ (goodRest_stop h)]

/-- Hexadecimal digit round trip. -/
theorem hexVal_hexDigitChar {m : Nat} (h : m < 16) : hexVal (hexDigitChar m) = some m := by
  interval_cases m <;> decide

/-- Rebuilding a string from its character list. -/
theorem stringMk_data (s : String) : String.mk s.data = s := by
  cases s
  rfl

/-- Parsing an escaped string body (with the closing quote appended) yields
the original characters and the continuation. -/
theorem parse_escList : ∀ (cs rest : List Char),
    parseStringBody (escList cs ++ '"' :: rest) = some (cs, rest) := by
  intro cs
  induction cs with
  | nil =>
    intro rest
    rw [show escList [] = [] from rfl, List.nil_append, parseStringBody.eq_def]
    simp
  | cons c cs ih =>
    intro rest
    rw [show escList (c :: cs) = escapeChar c ++ escList cs from rfl, List.append_assoc,
      escapeChar]
    split_ifs with h1 h2 h3 h4 h5 h6 h7 h8
    · subst h1
      rw [List.cons_append, List.cons_append, List.nil_append, parseStringBody.eq_def]
      simp [unescChar, ih]
    · subst h2
      rw [List.cons_append, List.cons_append, List.nil_append, parseStringBody.eq_def]
      simp [unescChar, ih]
    · subst h3
      rw [List.cons_append, List.cons_append, List.nil_append, parseStringBody.eq_def]
      simp [unescChar, ih]
    · subst h4
      rw [List.cons_append, List.cons_append, List.nil_append, parseStringBody.eq_def]
      simp [unescChar, ih]
    · subst h5
      rw [List.cons_append, List.cons_append, List.nil_append, parseStringBody.eq_def]
      simp [unescChar, ih]
    · subst h6
      rw [List.cons_append, List.cons_append, List.nil_append, parseStringBody.eq_def]
      simp [unescChar, ih]
    · subst h7
      rw [List.cons_append, List.cons_append, List.nil_append, parseStringBody.eq_def]
      simp [unescChar, ih]
    · -- generic control character: a \u00XX escape
      have hdiv : c.toNat / 16 < 16 := by omega
      have hmod : c.toNat % 16 < 16 := by omega
      have hv1 := hexVal_hexDigitChar hdiv
      have hv2 := hexVal_hexDigitChar hmod
      have h0 : hexVal '0' = some 0 := by decide
      have hn : ((0 * 16 + 0) * 16 + c.toNat / 16) * 16 + c.toNat % 16 = c.toNat := by
        have := Nat.div_add_mod c.toNat 16
        omega
      have hno : ¬(55296 ≤ c.toNat ∧ c.toNat < 57344) := by omega
      simp only [List.cons_append, List.nil_append]
      rw [parseStringBody.eq_def]
      simp only [reduceIte, h0, hv1, hv2]
      rw [hn, if_neg hno, Char.ofNat_toNat, ih]
      rfl
    · -- unescaped ordinary character
      rw [List.singleton_append, parseStringBody.eq_def]
      simp [h1, h2, h8, ih]

theorem escapeChar_plain {c : Char} (h : noEscChar c = true) : escapeChar c = [c] := by
  simp only [noEscChar, Bool.and_eq_true, decide_eq_true_eq] at h
  obtain ⟨⟨hq, hb⟩, hge⟩ := h
  rw [escapeChar, if_neg hq, if_neg hb,
    if_neg (fun he => absurd (he ▸ hge) (by decide)),
    if_neg (fun he => absurd (he ▸ hge) (by decide)),
    if_neg (fun he => absurd (he ▸ hge) (by decide)),
    if_neg (fun he => absurd (he ▸ hge) (by decide)),
    if_neg (fun he => absurd (he ▸ hge) (by decide)),
    if_neg (by omega)]

/-- Borrowed-key parsing of an escape-free serialized key. -/
theorem parse_keyNE : ∀ (cs : List Char), (∀ c ∈ cs, noEscChar c = true) →
    ∀ rest, parseKeyNE (escList cs ++ '"' :: rest) = some (cs, rest) := by
  intro cs
  induction cs with
  | nil =>
    intro _ rest
    simp [escList, parseKeyNE]
  | cons c cs ih =>
    intro h rest
    have hc := h c (List.mem_cons_self _ _)
    have hcs : ∀ d ∈ cs, noEscChar d = true := fun d hd => h d (List.mem_cons_of_mem _ hd)
    rw [show escList (c :: cs) = escapeChar c ++ escList cs from rfl, List.append_assoc,
      escapeChar_plain hc]
    simp only [noEscChar, Bool.and_eq_true, decide_eq_true_eq] at hc
    obtain ⟨⟨hq, hb⟩, hge⟩ := hc
    simp [parseKeyNE, hq, hb, Nat.not_lt.mpr hge, ih hcs rest]

theorem keysSortedB_iff : ∀ {m : List (String × JsonValue)},
    keysSortedB m = true ↔ SortedKeys m := by
  intro m
  induction m with
  | nil => simp [keysSortedB, SortedKeys]
  | cons a rest ih =>
    cases rest with
    | nil => simp [keysSortedB, SortedKeys]
    | cons b t =>
      rw [keysSortedB, SortedKeys, List.pairwise_cons]
      constructor
      · intro h
        obtain ⟨h1, h2⟩ := Bool.and_eq_true_iff.mp h
        have hab : a.1 < b.1 := of_decide_eq_true h1
        have hp : SortedKeys (b :: t) := ih.mp h2
        refine ⟨?_, hp⟩
        intro x hx
        rcases List.mem_cons.mp hx with he | hm
        · subst he; exact hab
        · exact lt_trans hab ((List.pairwise_cons.mp hp).1 x hm)
      · intro ⟨h1, h2⟩
        refine Bool.and_eq_true_iff.mpr ⟨decide_eq_true ?_, ih.mpr h2⟩
        exact h1 b (List.mem_cons_self _ _)

theorem mem_insertSorted {k : String} {v : JsonValue} : ∀ {m a},
    a ∈ insertSorted k v m → a = (k, v) ∨ a ∈ m := by
  intro m
  induction m with
  | nil =>
    intro a h
    simp [insertSorted] at h
    exact Or.inl h
  | cons kv rest ih =>
    intro a h
    rw [insertSorted] at h
    split_ifs at h with h1 h2
    · simp only [List.mem_cons] at h ⊢
      tauto
    · simp only [List.mem_cons] at h ⊢
      tauto
    · rcases List.mem_cons.mp h with he | hm
      · exact Or.inr (he ▸ List.mem_cons_self _ _)
      · rcases ih hm with he | hm2
        · exact Or.inl he
        · exact Or.inr (List.mem_cons_of_mem _ hm2)

theorem insertSorted_sorted {k : String} {v : JsonValue} : ∀ {m},
    SortedKeys m → SortedKeys (insertSorted k v m) := by
  intro m
  induction m with
  | nil =>
    intro _
    simp [insertSorted, SortedKeys]
  | cons kv rest ih =>
    intro h
    obtain ⟨h1, h2⟩ := List.pairwise_cons.mp h
    rw [insertSorted]
    split_ifs with g1 g2
    · refine List.Pairwise.cons ?_ h
      intro b hb
      rcases List.mem_cons.mp hb with he | hm
      · subst he; exact g1
      · exact lt_trans g1 (h1 b hm)
    · exact List.Pairwise.cons (fun b hb => g2 ▸ h1 b hb) h2
    · have hk : kv.1 < k := by
        rcases lt_trichotomy k kv.1 with h3 | h3 | h3
        · exact absurd h3 g1
        · exact absurd h3 g2
        · exact h3
      refine List.Pairwise.cons ?_ (ih h2)
      intro b hb
      rcases mem_insertSorted hb with he | hm
      · rw [he]; exact hk
      · exact h1 b hm

theorem lookup_insertSorted (k : String) (v : JsonValue) : ∀ m,
    lookupKey k (insertSorted k v m) = some v := by
  intro m
  induction m with
  | nil => simp [insertSorted, lookupKey]
  | cons kv rest ih =>
    rw [insertSorted]
    split_ifs with g1 g2
    · simp [lookupKey]
    · simp [lookupKey]
    · have hk : kv.1 < k := by
        rcases lt_trichotomy k kv.1 with h3 | h3 | h3
        · exact absurd h3 g1
        · exact absurd h3 g2
        · exact h3
      rw [lookupKey, if_neg (ne_of_lt hk), ih]

theorem insertSorted_append_big {k : String} {v : JsonValue} : ∀ {m},
    (∀ a ∈ m, a.1 < k) → insertSorted k v m = m ++ [(k, v)] := by
  intro m
  induction m with
  | nil => intro _; rfl
  | cons kv rest ih =>
    intro h
    have h0 := h kv (List.mem_cons_self _ _)
    rw [insertSorted, if_neg (lt_asymm h0), if_neg (Ne.symm (ne_of_lt h0)),
      ih (fun a ha => h a (List.mem_cons_of_mem _ ha))]
    rfl

theorem sortObjPairs_self : ∀ {m : List (String × JsonValue)},
    SortedKeys m → sortObjPairs m = m := by
  suffices h2 : ∀ (m acc : List (String × JsonValue)), SortedKeys (acc ++ m) →
      List.foldl (fun m kv => insertSorted kv.1 kv.2 m) acc m = acc ++ m by
    intro m h
    simpa using h2 m [] (by simpa using h)
  intro m
  induction m with
  | nil =>
    intro acc _
    simp
  | cons kv rest ih =>
    intro acc h
    rw [List.foldl_cons]
    have hbig : ∀ a ∈ acc, a.1 < kv.1 :=
      fun a ha => (List.pairwise_append.mp h).2.2 a ha kv (List.mem_cons_self _ _)
    rw [insertSorted_append_big hbig, ih (acc ++ [kv]) (by simpa [List.append_assoc] using h)]
    simp

theorem parseValue_null (fuel : Nat) (rest : List Char) :
    parseValue (fuel + 1) (serVal .null ++ rest) = some (.null, rest) := by
  rw [show serVal .null = ['n', 'u', 'l', 'l'] from rfl, parseValue.eq_def]
  simp [ws, isWsChar]

theorem parseValue_bool (b : Bool) (fuel : Nat) (rest : List Char) :
    parseValue (fuel + 1) (serVal (.bool b) ++ rest) = some (.bool b, rest) := by
  cases b <;> (rw [parseValue.eq_def]; simp [serVal, ws, isWsChar])

theorem parseValue_str (s : String) (fuel : Nat) (rest : List Char) :
    parseValue (fuel + 1) (serVal (.str s) ++ rest) = some (.str s, rest) := by
  rw [show serVal (.str s) = serStr s from rfl, serStr]
  simp only [List.cons_append, List.append_assoc, List.singleton_append]
  rw [parseValue.eq_def]
  simp [ws, isWsChar, parse_escList, stringMk_data]

theorem parseValue_int (n : Int) (fuel : Nat) {rest : List Char} (hr : GoodRest rest) :
    parseValue (fuel + 1) (serVal (.int n) ++ rest) = some (.int n, rest) := by
  rw [show serVal (.int n) = serInt n from rfl, serInt]
  split_ifs with hneg
  · simp only [List.cons_append]
    rw [parseValue.eq_def]
    simp only [ws_cons (by decide : isWsChar '-' = false)]
    simp only [reduceIte]
    rw [parseNum_natDigits _ hr]
    have habs : (n.natAbs : Int) = -n := by omega
    simp [habs]
  · obtain ⟨c, t, he, hd, hz⟩ := natDigits_spec n.toNat
    obtain ⟨g1, g2, g3, g4, g5, g6, g7, g8, g9, g10, g11⟩ := digit_ne_lits hd
    rw [he, List.cons_append, parseValue.eq_def]
    simp only [ws_cons (isWsChar_of_digit hd)]
    simp only [g1, g2, g3, g4, g5, g6, g7, if_false, hd, if_true]
    rw [← List.cons_append, ← he, parseNum_natDigits _ hr]
    simp
    omega

theorem parseValue_arrNil (fuel : Nat) (rest : List Char) :
    parseValue (fuel + 1) (serVal (.arr []) ++ rest) = some (.arr [], rest) := by
  rw [show serVal (.arr []) = ['[', ']'] from rfl, parseValue.eq_def]
  simp [ws, isWsChar]

theorem parseValue_objNil (fuel : Nat) (rest : List Char) :
    parseValue (fuel + 1) (serVal (.obj []) ++ rest) = some (.obj [], rest) := by
  rw [show serVal (.obj []) = ['\x7b', '\x7d'] from rfl, parseValue.eq_def]
  simp [ws, isWsChar]

theorem serArrItemsHead (x : JsonValue) (xs : List JsonValue) :
    ∃ c t, serArrItems (x :: xs) = c :: t ∧ isWsChar c = false ∧ (c = ']') = False := by
  obtain ⟨c, t, he, hw, h1, h2⟩ := serValHead x
  cases xs with
  | nil => exact ⟨c, t, by rw [show serArrItems [x] = serVal x from rfl, he], hw, h1⟩
  | cons y ys =>
    exact ⟨c, t ++ ',' :: serArrItems (y :: ys),
      by rw [show serArrItems (x :: y :: ys) = serVal x ++ ',' :: serArrItems (y :: ys) from rfl,
        he]; rfl, hw, h1⟩

theorem parseValue_arrCons (x : JsonValue) (xs : List JsonValue) (fuel : Nat) (rest : List Char) :
    parseValue (fuel + 1) (serVal (.arr (x :: xs)) ++ rest) =
      (parseArrItems fuel (serArrItems (x :: xs) ++ ']' :: rest)).map
        (fun p => (.arr p.1, p.2)) := by
  obtain ⟨c, t, he, hw, h1⟩ := serArrItemsHead x xs
  rw [show serVal (.arr (x :: xs)) = '[' :: serArrItems (x :: xs) ++ [']'] from rfl]
  simp only [List.cons_append, List.append_assoc, List.singleton_append]
  rw [parseValue.eq_def]
  simp only [ws_cons (by decide : isWsChar '[' = false)]
  simp only [reduceIte]
  rw [he, List.cons_append, ws_cons hw]
  simp [h1]

theorem serObjItemsHead (kv : String × JsonValue) (fs : List (String × JsonValue)) :
    ∃ t, serObjItems (kv :: fs) = '"' :: t := by
  cases fs with
  | nil => exact ⟨escList kv.1.data ++ ['"'] ++ ':' :: serVal kv.2,
      by rw [show serObjItems [kv] = serStr kv.1 ++ ':' :: serVal kv.2 from rfl, serStr]; simp⟩
  | cons kv2 fs2 =>
    exact ⟨escList kv.1.data ++ ['"'] ++ ':' :: serVal kv.2 ++ ',' :: serObjItems (kv2 :: fs2),
      by rw [show serObjItems (kv :: kv2 :: fs2) =
          serStr kv.1 ++ ':' :: serVal kv.2 ++ ',' :: serObjItems (kv2 :: fs2) from rfl, serStr]
         simp⟩

theorem parseValue_objCons (kv : String × JsonValue) (fs : List (String × JsonValue))
    (fuel : Nat) (rest : List Char) :
    parseValue (fuel + 1) (serVal (.obj (kv :: fs)) ++ rest) =
      (parseObjItems fuel (serObjItems (kv :: fs) ++ '\x7d' :: rest)).map
        (fun p => (.obj (sortObjPairs p.1), p.2)) := by
  obtain ⟨t, he⟩ := serObjItemsHead kv fs
  rw [show serVal (.obj (kv :: fs)) = '\x7b' :: serObjItems (kv :: fs) ++ ['\x7d'] from rfl]
  simp only [List.cons_append, List.append_assoc, List.singleton_append]
  rw [parseValue.eq_def]
  simp only [ws_cons (by decide : isWsChar '\x7b' = false)]
  simp only [reduceIte]
  rw [he, List.cons_append, ws_cons (by decide : isWsChar '"' = false)]
  simp

theorem jsize_pos (v : JsonValue) : 1 ≤ jsize v := by
  cases v <;> simp [jsize]

theorem jsize_arr (xs : List JsonValue) : jsize (.arr xs) = 1 + jsizeArr xs := rfl

theorem jsize_obj (fs : List (String × JsonValue)) : jsize (.obj fs) = 1 + jsizeObj fs := rfl

theorem jsizeArr_cons (x : JsonValue) (xs : List JsonValue) :
    jsizeArr (x :: xs) = 1 + jsize x + jsizeArr xs := rfl

theorem jsizeObj_cons (kv : String × JsonValue) (fs : List (String × JsonValue)) :
    jsizeObj (kv :: fs) = 1 + jsize kv.2 + jsizeObj fs := rfl

theorem goodRest_comma (t : List Char) : GoodRest (',' :: t) := Or.inl rfl

theorem goodRest_rbrace (t : List Char) : GoodRest ('\x7d' :: t) := Or.inr (Or.inl rfl)

theorem goodRest_rbracket (t : List Char) : GoodRest (']' :: t) := Or.inr (Or.inr rfl)

theorem parse_ser_main : ∀ k : Nat,
    (∀ (v : JsonValue) (fuel : Nat) (rest : List Char), jsize v ≤ k → jsize v ≤ fuel →
      canV v = true → GoodRest rest → parseValue fuel (serVal v ++ rest) = some (v, rest)) ∧
    (∀ (x : JsonValue) (xs : List JsonValue) (fuel : Nat) (rest : List Char),
      jsizeArr (x :: xs) ≤ k → jsizeArr (x :: xs) ≤ fuel → canArr (x :: xs) = true →
      parseArrItems fuel (serArrItems (x :: xs) ++ ']' :: rest) = some (x :: xs, rest)) ∧
    (∀ (kv : String × JsonValue) (fs : List (String × JsonValue)) (fuel : Nat)
      (rest : List Char), jsizeObj (kv :: fs) ≤ k → jsizeObj (kv :: fs) ≤ fuel →
      canFs (kv :: fs) = true →
      parseObjItems fuel (serObjItems (kv :: fs) ++ '\x7d' :: rest) = some (kv :: fs, rest)) := by
  intro k
  induction k using Nat.strong_induction_on with
  | _ k ih =>
    refine ⟨?_, ?_, ?_⟩
    · intro v fuel rest hk hf hc hr
      cases fuel with
      | zero => exact absurd hf (by have := jsize_pos v; omega)
      | succ fuel =>
        cases v with
        | null => exact parseValue_null fuel rest
        | bool b => exact parseValue_bool b fuel rest
        | int n => exact parseValue_int n fuel hr
        | str s => exact parseValue_str s fuel rest
        | arr xs =>
          cases xs with
          | nil => exact parseValue_arrNil fuel rest
          | cons x xs =>
            have e := jsize_arr (x :: xs)
            have hlt : k - 1 < k := by have := jsize_pos (.arr (x :: xs)); omega
            have hf2 : jsizeArr (x :: xs) ≤ fuel := by omega
            have hk2 : jsizeArr (x :: xs) ≤ k - 1 := by omega
            have hc2 : canArr (x :: xs) = true := by simpa [canV] using hc
            rw [parseValue_arrCons, (ih (k - 1) hlt).2.1 x xs fuel rest hk2 hf2 hc2]
            rfl
        | obj fs =>
          cases fs with
          | nil => exact parseValue_objNil fuel rest
          | cons kv fs =>
            have e := jsize_obj (kv :: fs)
            have hlt : k - 1 < k := by have := jsize_pos (.obj (kv :: fs)); omega
            have hf2 : jsizeObj (kv :: fs) ≤ fuel := by omega
            have hk2 : jsizeObj (kv :: fs) ≤ k - 1 := by omega
            have hcc : keysSortedB (kv :: fs) = true ∧ canFs (kv :: fs) = true := by
              simpa [canV, Bool.and_eq_true] using hc
            rw [parseValue_objCons, (ih (k - 1) hlt).2.2 kv fs fuel rest hk2 hf2 hcc.2]
            simp [sortObjPairs_self (keysSortedB_iff.mp hcc.1)]
    · intro x xs fuel rest hk hf hc
      have ej := jsizeArr_cons x xs
      have hjx := jsize_pos x
      cases fuel with
      | zero => exact absurd hf (by omega)
      | succ fuel =>
        obtain ⟨hcx, hcxs⟩ : canV x = true ∧ canArr xs = true := by
          simpa [canArr, Bool.and_eq_true] using hc
        have hlt : k - 1 < k := by omega
        cases xs with
        | nil =>
          have e0 : jsizeArr ([] : List JsonValue) = 0 := rfl
          have hpv := (ih (k - 1) hlt).1 x fuel (']' :: rest) (by omega) (by omega) hcx
            (goodRest_rbracket rest)
          rw [parseArrItems.eq_def, show serArrItems [x] = serVal x from rfl]
          simp [hpv, ws_cons (by decide : isWsChar ']' = false)]
        | cons y ys =>
          have e2 := jsizeArr_cons y ys
          have hjy := jsize_pos y
          have hpv := (ih (k - 1) hlt).1 x fuel (',' :: (serArrItems (y :: ys) ++ ']' :: rest))
            (by omega) (by omega) hcx (goodRest_comma _)
          have hrec := (ih (k - 1) hlt).2.1 y ys fuel rest (by omega) (by omega) hcxs
          rw [parseArrItems.eq_def,
            show serArrItems (x :: y :: ys) = serVal x ++ ',' :: serArrItems (y :: ys) from rfl]
          simp only [List.append_assoc, List.cons_append]
          simp [hpv, hrec, ws_cons (by decide : isWsChar ',' = false)]
    · intro kv fs fuel rest hk hf hc
      have ej := jsizeObj_cons kv fs
      have hjv := jsize_pos kv.2
      cases fuel with
      | zero => exact absurd hf (by omega)
      | succ fuel =>
        obtain ⟨hcv, hcfs⟩ : canV kv.2 = true ∧ canFs fs = true := by
          simpa [canFs, Bool.and_eq_true] using hc
        have hlt : k - 1 < k := by omega
        cases fs with
        | nil =>
          have e0 : jsizeObj ([] : List (String × JsonValue)) = 0 := rfl
          have hpv := (ih (k - 1) hlt).1 kv.2 fuel ('\x7d' :: rest) (by omega) (by omega) hcv
            (goodRest_rbrace rest)
          rw [parseObjItems.eq_def,
            show serObjItems [kv] = serStr kv.1 ++ ':' :: serVal kv.2 from rfl, serStr]
          simp only [List.cons_append, List.append_assoc, List.singleton_append, List.nil_append]
          simp [ws_cons (by decide : isWsChar '"' = false), parse_escList,
            ws_cons (by decide : isWsChar ':' = false), hpv,
            ws_cons (by decide : isWsChar '\x7d' = false), stringMk_data]
        | cons kv2 fs2 =>
          have e2 := jsizeObj_cons kv2 fs2
          have hjv2 := jsize_pos kv2.2
          have hpv := (ih (k - 1) hlt).1 kv.2 fuel
            (',' :: (serObjItems (kv2 :: fs2) ++ '\x7d' :: rest)) (by omega) (by omega) hcv
            (goodRest_comma _)
          have hrec := (ih (k - 1) hlt).2.2 kv2 fs2 fuel rest (by omega) (by omega) hcfs
          rw [parseObjItems.eq_def,
            show serObjItems (kv :: kv2 :: fs2) =
              serStr kv.1 ++ ':' :: serVal kv.2 ++ ',' :: serObjItems (kv2 :: fs2) from rfl,
            serStr]
          simp only [List.cons_append, List.append_assoc, List.singleton_append, List.nil_append]
          simp [ws_cons (by decide : isWsChar '"' = false), parse_escList,
            ws_cons (by decide : isWsChar ':' = false), hpv,
            ws_cons (by decide : isWsChar ',' = false), hrec, stringMk_data]

/-- Round trip: a canonical value's serialization parses back to it. -/
theorem parse_serVal (v : JsonValue) (fuel : Nat) (rest : List Char)
    (hf : jsize v ≤ fuel) (hc : canV v = true) (hr : GoodRest rest) :
    parseValue fuel (serVal v ++ rest) = some (v, rest) :=
  (parse_ser_main (jsize v)).1 v fuel rest (le_refl _) hf hc hr

theorem serLen_main : ∀ k : Nat,
    (∀ v, jsize v ≤ k → jsize v ≤ (serVal v).length) ∧
    (∀ (x : JsonValue) (xs : List JsonValue), jsizeArr (x :: xs) ≤ k →
      jsizeArr (x :: xs) ≤ (serArrItems (x :: xs)).length + 1) ∧
    (∀ (kv : String × JsonValue) (fs : List (String × JsonValue)), jsizeObj (kv :: fs) ≤ k →
      jsizeObj (kv :: fs) ≤ (serObjItems (kv :: fs)).length + 1) := by
  intro k
  induction k using Nat.strong_induction_on with
  | _ k ih =>
    refine ⟨?_, ?_, ?_⟩
    · intro v hk
      cases v with
      | arr xs =>
        cases xs with
        | nil => simp [jsize, jsizeArr, serVal, serArrItems]
        | cons x xs =>
          have e := jsize_arr (x :: xs)
          have hlt : k - 1 < k := by have := jsize_pos (.arr (x :: xs)); omega
          have h2 := (ih (k - 1) hlt).2.1 x xs (by omega)
          have elen : (serVal (.arr (x :: xs))).length = (serArrItems (x :: xs)).length + 2 := by
            rw [show serVal (.arr (x :: xs)) = '[' :: serArrItems (x :: xs) ++ [']'] from rfl]
            simp
          omega
      | obj fs =>
        cases fs with
        | nil => simp [jsize, jsizeObj, serVal, serObjItems]
        | cons kv fs =>
          have e := jsize_obj (kv :: fs)
          have hlt : k - 1 < k := by have := jsize_pos (.obj (kv :: fs)); omega
          have h2 := (ih (k - 1) hlt).2.2 kv fs (by omega)
          have elen : (serVal (.obj (kv :: fs))).length = (serObjItems (kv :: fs)).length + 2 := by
            rw [show serVal (.obj (kv :: fs)) = '\x7b' :: serObjItems (kv :: fs) ++ ['\x7d'] from
              rfl]
            simp
          omega
      | null => simp [jsize, serVal]
      | bool b => cases b <;> simp [jsize, serVal]
      | int n =>
        obtain ⟨c, t, he, -, -, -⟩ := serValHead (.int n)
        have : 1 ≤ (serVal (.int n)).length := by rw [he]; simp
        have : jsize (.int n) = 1 := rfl
        omega
      | str s =>
        have : jsize (.str s) = 1 := rfl
        have : 1 ≤ (serVal (.str s)).length := by
          rw [show serVal (.str s) = '"' :: escList s.data ++ ['"'] from rfl]
          simp
        omega
    · intro x xs hk
      have ej := jsizeArr_cons x xs
      have hjx := jsize_pos x
      have hlt : k - 1 < k := by omega
      have hx := (ih (k - 1) hlt).1 x (by omega)
      cases xs with
      | nil =>
        have e0 : jsizeArr ([] : List JsonValue) = 0 := rfl
        have : (serArrItems [x]).length = (serVal x).length := by
          rw [show serArrItems [x] = serVal x from rfl]
        omega
      | cons y ys =>
        have e2 := jsizeArr_cons y ys
        have h2 := (ih (k - 1) hlt).2.1 y ys (by omega)
        have elen : (serArrItems (x :: y :: ys)).length =
            (serVal x).length + 1 + (serArrItems (y :: ys)).length := by
          rw [show serArrItems (x :: y :: ys) = serVal x ++ ',' :: serArrItems (y :: ys) from rfl]
          simp
          omega
        omega
    · intro kv fs hk
      have ej := jsizeObj_cons kv fs
      have hjv := jsize_pos kv.2
      have hlt : k - 1 < k := by omega
      have hx := (ih (k - 1) hlt).1 kv.2 (by omega)
      cases fs with
      | nil =>
        have e0 : jsizeObj ([] : List (String × JsonValue)) = 0 := rfl
        have : (serObjItems [kv]).length = (serStr kv.1).length + 1 + (serVal kv.2).length := by
          rw [show serObjItems [kv] = serStr kv.1 ++ ':' :: serVal kv.2 from rfl]
          simp
          omega
        omega
      | cons kv2 fs2 =>
        have e2 := jsizeObj_cons kv2 fs2
        have h2 := (ih (k - 1) hlt).2.2 kv2 fs2 (by omega)
        have elen : (serObjItems (kv :: kv2 :: fs2)).length =
            (serStr kv.1).length + 1 + (serVal kv.2).length + 1 +
              (serObjItems (kv2 :: fs2)).length := by
          rw [show serObjItems (kv :: kv2 :: fs2) =
            serStr kv.1 ++ ':' :: serVal kv.2 ++ ',' :: serObjItems (kv2 :: fs2) from rfl]
          simp
          omega
        omega

theorem jsize_le_serLen (v : JsonValue) : jsize v ≤ (serVal v).length :=
  (serLen_main (jsize v)).1 v (le_refl _)

/-- Top-level round trip through from_str: parsing the canonical
serialization of a canonical value yields it back. -/
theorem parseJson_serValStr (v : JsonValue) (hc : canV v = true) :
    parseJson (serValStr v) = some v := by
  have hdata : (serValStr v).data = serVal v := rfl
  rw [parseJson, hdata]
  have hpv := parse_serVal v ((serVal v).length + 1) []
    (by have := jsize_le_serLen v; omega) hc trivial
  rw [show serVal v ++ ([] : List Char) = serVal v from by simp] at hpv
  rw [hpv]
  rfl

theorem noEscKey_chars {s : String} (h : noEscKey s = true) : ∀ c ∈ s.data, noEscChar c = true :=
  List.all_eq_true.mp h

theorem parse_serObjItems_borrowed : ∀ (fs : List (String × JsonValue))
    (kv : String × JsonValue) (fuel : Nat) (rest : List Char),
    jsizeObj (kv :: fs) ≤ fuel → canFs (kv :: fs) = true →
    (∀ p ∈ kv :: fs, noEscKey p.1 = true) →
    parseBorrowedItems fuel (serObjItems (kv :: fs) ++ '\x7d' :: rest) = some (kv :: fs, rest) := by
  intro fs
  induction fs with
  | nil =>
    intro kv fuel rest hf hc hne
    have ej := jsizeObj_cons kv []
    have hjv := jsize_pos kv.2
    cases fuel with
    | zero => exact absurd hf (by omega)
    | succ fuel =>
      obtain ⟨hcv, -⟩ : canV kv.2 = true ∧ canFs [] = true := by
        simpa [canFs, Bool.and_eq_true] using hc
      have hpv := parse_serVal kv.2 fuel ('\x7d' :: rest) (by omega) hcv (goodRest_rbrace rest)
      have hk := parse_keyNE kv.1.data (noEscKey_chars (hne kv (List.mem_cons_self _ _)))
      rw [parseBorrowedItems.eq_def,
        show serObjItems [kv] = serStr kv.1 ++ ':' :: serVal kv.2 from rfl, serStr]
      simp only [List.cons_append, List.append_assoc, List.singleton_append, List.nil_append]
      simp [ws_cons (by decide : isWsChar '"' = false), hk,
        ws_cons (by decide : isWsChar ':' = false), hpv,
        ws_cons (by decide : isWsChar '\x7d' = false), stringMk_data]
  | cons kv2 fs2 ih =>
    intro kv fuel rest hf hc hne
    have ej := jsizeObj_cons kv (kv2 :: fs2)
    have e2 := jsizeObj_cons kv2 fs2
    have hjv := jsize_pos kv.2
    have hjv2 := jsize_pos kv2.2
    cases fuel with
    | zero => exact absurd hf (by omega)
    | succ fuel =>
      obtain ⟨hcv, hcfs⟩ : canV kv.2 = true ∧ canFs (kv2 :: fs2) = true := by
        simpa [canFs, Bool.and_eq_true] using hc
      have hpv := parse_serVal kv.2 fuel
        (',' :: (serObjItems (kv2 :: fs2) ++ '\x7d' :: rest)) (by omega) hcv (goodRest_comma _)
      have hk := parse_keyNE kv.1.data (noEscKey_chars (hne kv (List.mem_cons_self _ _)))
      have hrec := ih kv2 fuel rest (by omega) hcfs
        (fun p hp => hne p (List.mem_cons_of_mem _ hp))
      rw [parseBorrowedItems.eq_def,
        show serObjItems (kv :: kv2 :: fs2) =
          serStr kv.1 ++ ':' :: serVal kv.2 ++ ',' :: serObjItems (kv2 :: fs2) from rfl, serStr]
      simp only [List.cons_append, List.append_assoc, List.singleton_append, List.nil_append]
      simp [ws_cons (by decide : isWsChar '"' = false), hk,
        ws_cons (by decide : isWsChar ':' = false), hpv,
        ws_cons (by decide : isWsChar ',' = false), hrec, stringMk_data]

/-- Re-parsing a serialized BTreeMap through the borrowed-key path of
add_fields yields the map back, provided its keys need no escaping. -/
theorem parseBorrowedMap_finish (m : List (String × JsonValue)) (hs : SortedKeys m)
    (hcf : canFs m = true) (hne : ∀ p ∈ m, noEscKey p.1 = true) :
    parseBorrowedMap (finishStr m) = some m := by
  have hdata : (finishStr m).data = '\x7b' :: serObjItems m ++ ['\x7d'] := rfl
  rw [parseBorrowedMap, hdata]
  cases m with
  | nil =>
    simp [ws, isWsChar, serObjItems, sortObjPairs]
  | cons kv fs =>
    obtain ⟨t, he⟩ := serObjItemsHead kv fs
    have hlen : jsizeObj (kv :: fs) ≤
        ('\x7b' :: serObjItems (kv :: fs) ++ ['\x7d'] : List Char).length + 1 := by
      have h1 := jsize_le_serLen (.obj (kv :: fs))
      have h2 : (serVal (.obj (kv :: fs))).length =
          ('\x7b' :: serObjItems (kv :: fs) ++ ['\x7d'] : List Char).length := rfl
      have h3 := jsize_obj (kv :: fs)
      omega
    have hitems := parse_serObjItems_borrowed fs kv
      (('\x7b' :: serObjItems (kv :: fs) ++ ['\x7d'] : List Char).length + 1) [] hlen hcf hne
    rw [he] at hitems
    simp only [List.cons_append, List.append_assoc, List.nil_append, List.length_cons,
      List.length_append, List.length_nil] at hitems
    rw [he]
    simp only [List.cons_append, List.append_assoc, List.nil_append]
    simp [ws, isWsChar, hitems, sortObjPairs_self hs]

theorem recordOne_eq (tracingLog : Bool) (m : List (String × JsonValue))
    (f : String × FieldValue) :
    recordOne tracingLog m f =
      match storedKey tracingLog f with
      | none => m
      | some k => insertSorted k (serdeFieldJson f.2) m := by
  rcases f with ⟨n, v⟩
  cases v with
  | debug s =>
    rw [show recordOne tracingLog m (n, .debug s) = record_debug tracingLog m n s from rfl,
      record_debug, storedKey]
    split_ifs <;> rfl
  | i64 n2 => rfl
  | u64 n2 => rfl
  | bool b => rfl
  | str s => rfl

theorem canV_serdeFieldJson (v : FieldValue) : canV (serdeFieldJson v) = true := by
  cases v <;> rfl

theorem canFs_iff : ∀ {m : List (String × JsonValue)},
    canFs m = true ↔ ∀ kv ∈ m, canV kv.2 = true := by
  intro m
  induction m with
  | nil => simp [canFs]
  | cons kv fs ih =>
    rw [show canFs (kv :: fs) = (canV kv.2 && canFs fs) from rfl]
    simp [Bool.and_eq_true, ih]

theorem recordAll_inv (tracingLog : Bool) : ∀ (fs : List (String × FieldValue))
    (m : List (String × JsonValue)), SortedKeys m →
    (∀ kv ∈ m, canV kv.2 = true) →
    SortedKeys (recordAll tracingLog fs m) ∧
      (∀ kv ∈ recordAll tracingLog fs m, canV kv.2 = true) := by
  intro fs
  induction fs with
  | nil => exact fun m h1 h2 => ⟨h1, h2⟩
  | cons f fs ih =>
    intro m h1 h2
    rw [show recordAll tracingLog (f :: fs) m =
      recordAll tracingLog fs (recordOne tracingLog m f) from rfl]
    refine ih _ ?_ ?_
    · rw [recordOne_eq]
      cases storedKey tracingLog f with
      | none => exact h1
      | some k => exact insertSorted_sorted h1
    · rw [recordOne_eq]
      cases storedKey tracingLog f with
      | none => exact h2
      | some k =>
        intro kv hkv
        rcases mem_insertSorted hkv with he | hm
        · rw [he]; exact canV_serdeFieldJson f.2
        · exact h2 kv hm

theorem recordAll_noesc (tracingLog : Bool) : ∀ (fs : List (String × FieldValue))
    (m : List (String × JsonValue)),
    (∀ kv ∈ m, noEscKey kv.1 = true) →
    (∀ f ∈ fs, storedKeyOkB tracingLog f = true) →
    ∀ kv ∈ recordAll tracingLog fs m, noEscKey kv.1 = true := by
  intro fs
  induction fs with
  | nil => exact fun m h1 _ => h1
  | cons f fs ih =>
    intro m h1 h2
    rw [show recordAll tracingLog (f :: fs) m =
      recordAll tracingLog fs (recordOne tracingLog m f) from rfl]
    refine ih _ ?_ (fun g hg => h2 g (List.mem_cons_of_mem _ hg))
    rw [recordOne_eq]
    have hf := h2 f (List.mem_cons_self _ _)
    rw [storedKeyOkB] at hf
    cases hsk : storedKey tracingLog f with
    | none => exact h1
    | some k =>
      intro kv hkv
      rcases mem_insertSorted hkv with he | hm
      · rw [he]
        rw [hsk] at hf
        exact hf
      · exact h1 kv hm

theorem recordAll_append (tracingLog : Bool) (fs1 fs2 : List (String × FieldValue))
    (m : List (String × JsonValue)) :
    recordAll tracingLog (fs1 ++ fs2) m =
      recordAll tracingLog fs2 (recordAll tracingLog fs1 m) := by
  rw [recordAll, recordAll, recordAll, List.foldl_append]

/-- The serialized map is never the empty string (it starts with a brace). -/
theorem finishStr_ne_empty (m : List (String × JsonValue)) : finishStr m ≠ "" := by
  intro h
  have h2 : (finishStr m).data = '\x7b' :: serObjItems m ++ ['\x7d'] := rfl
  rw [h] at h2
  exact absurd h2 (by simp [show ("" : String).data = [] from rfl])

/-- One merging step of add_fields on a well-formed stored map. -/
theorem add_fields_step (tracingLog : Bool) (m : List (String × JsonValue))
    (fields : List (String × FieldValue)) (hs : SortedKeys m)
    (hcf : ∀ kv ∈ m, canV kv.2 = true) (hne : ∀ kv ∈ m, noEscKey kv.1 = true) :
    add_fields tracingLog (finishStr m) fields =
      (.ok (), finishStr (recordAll tracingLog fields m)) := by
  rw [add_fields, if_neg (finishStr_ne_empty m),
    parseBorrowedMap_finish m hs (canFs_iff.mpr hcf) hne]

theorem add_fields_empty (tracingLog : Bool) (fields : List (String × FieldValue)) :
    add_fields tracingLog "" fields = (.ok (), format_fields tracingLog fields) := by
  rw [add_fields, if_pos rfl]

/-- Applying batches to a well-formed stored map folds all of them into the
visitor's map. -/
theorem applyBatches_main (tracingLog : Bool) : ∀ (batches : List (List (String × FieldValue)))
    (m : List (String × JsonValue)), SortedKeys m → (∀ kv ∈ m, canV kv.2 = true) →
    (∀ kv ∈ m, noEscKey kv.1 = true) →
    (∀ b ∈ batches, ∀ f ∈ b, storedKeyOkB tracingLog f = true) →
    applyBatches tracingLog (finishStr m) batches =
      finishStr (recordAll tracingLog batches.flatten m) := by
  intro batches
  induction batches with
  | nil =>
    intro m _ _ _ _
    rfl
  | cons b bs ih =>
    intro m h1 h2 h3 hb
    have hstep := add_fields_step tracingLog m b h1 h2 h3
    rw [show applyBatches tracingLog (finishStr m) (b :: bs) =
      applyBatches tracingLog ((add_fields tracingLog (finishStr m) b).2) bs from rfl, hstep]
    obtain ⟨hs2, hc2⟩ := recordAll_inv tracingLog b m h1 h2
    have hne2 := recordAll_noesc tracingLog b m h3 (hb b (List.mem_cons_self _ _))
    rw [ih _ hs2 hc2 hne2 (fun b2 h => hb b2 (List.mem_cons_of_mem _ h))]
    rw [show (b :: bs).flatten = b ++ bs.flatten from rfl, recordAll_append]

theorem sortedKeys_nil : SortedKeys [] := List.Pairwise.nil

theorem recordAll_fresh_inv (tracingLog : Bool) (fields : List (String × FieldValue)) :
    SortedKeys (recordAll tracingLog fields []) ∧
      ∀ kv ∈ recordAll tracingLog fields [], canV kv.2 = true :=
  recordAll_inv tracingLog fields [] sortedKeys_nil (by intro kv h; exact absurd h (by simp))

/-- A visitor-produced map serializes to a canonical object value. -/
theorem canV_obj_of (m : List (String × JsonValue)) (hs : SortedKeys m)
    (hc : ∀ kv ∈ m, canV kv.2 = true) : canV (.obj m) = true := by
  rw [show canV (.obj m) = (keysSortedB m && canFs m) from rfl, Bool.and_eq_true]
  exact ⟨keysSortedB_iff.mpr hs, canFs_iff.mpr hc⟩

/-- Parsing the serialized form of a visitor-produced map yields the map. -/
theorem parseJson_finishStr (m : List (String × JsonValue)) (hs : SortedKeys m)
    (hc : ∀ kv ∈ m, canV kv.2 = true) : parseJson (finishStr m) = some (.obj m) :=
  parseJson_serValStr (.obj m) (canV_obj_of m hs hc)

theorem runSteps_nil (fail : StepId → Bool) : runSteps fail [] = .ok [] := rfl

theorem runSteps_cons_swallow_panic (fail : StepId → Bool) {st : Step} (rest : List Step)
    (hsw : st.swallow = true) {m : String} (h : st.act = .error (.panicked m)) :
    runSteps fail (st :: rest) = .error (.panicked m) := by
  rw [runSteps, if_pos hsw, h]

theorem runSteps_cons_swallow_err (fail : StepId → Bool) {st : Step} (rest : List Step)
    (hsw : st.swallow = true) (h : st.act = .error .fmtError) :
    runSteps fail (st :: rest) = runSteps fail rest := by
  rw [runSteps, if_pos hsw, h]

theorem runSteps_cons_swallow_ok_fail (fail : StepId → Bool) {st : Step} (rest : List Step)
    (hsw : st.swallow = true) {es2 : List (String × JsonValue)} (h : st.act = .ok es2)
    (hf : fail st.sid = true) : runSteps fail (st :: rest) = runSteps fail rest := by
  rw [runSteps, if_pos hsw, h]
  show (if fail st.sid = true then runSteps fail rest else _) = runSteps fail rest
  rw [if_pos hf]

theorem runSteps_cons_swallow_ok (fail : StepId → Bool) {st : Step} (rest : List Step)
    (hsw : st.swallow = true) {es2 : List (String × JsonValue)} (h : st.act = .ok es2)
    (hf : fail st.sid = false) :
    runSteps fail (st :: rest) = (runSteps fail rest).map (fun tail => es2 ++ tail) := by
  rw [runSteps, if_pos hsw, h]
  show (if fail st.sid = true then runSteps fail rest else _) = _
  rw [hf]
  rfl

theorem runSteps_cons_fail (fail : StepId → Bool) {st : Step} (rest : List Step)
    (hsw : st.swallow = false) (hf : fail st.sid = true) :
    runSteps fail (st :: rest) = .error .fmtError := by
  rw [runSteps, hsw, hf]
  rfl

theorem runSteps_cons_err (fail : StepId → Bool) {st : Step} (rest : List Step)
    (hsw : st.swallow = false) (hf : fail st.sid = false) {e2 : FmtErr}
    (h : st.act = .error e2) : runSteps fail (st :: rest) = .error e2 := by
  rw [runSteps, hsw, hf, h]
  rfl

theorem runSteps_cons_ok (fail : StepId → Bool) {st : Step} (rest : List Step)
    (hsw : st.swallow = false) (hf : fail st.sid = false)
    {es2 : List (String × JsonValue)} (h : st.act = .ok es2) :
    runSteps fail (st :: rest) = (runSteps fail rest).map (fun tail => es2 ++ tail) := by
  rw [runSteps, hsw, hf, h]
  rfl

theorem runSteps_mem (fail : StepId → Bool) : ∀ (steps : List Step)
    (es : List (String × JsonValue)), runSteps fail steps = .ok es →
    ∀ e ∈ es, ∃ st ∈ steps, ∃ es2, st.act = .ok es2 ∧ e ∈ es2 := by
  intro steps
  induction steps with
  | nil =>
    intro es h e he
    rw [runSteps_nil] at h
    cases h
    exact absurd he (by simp)
  | cons st rest ih =>
    intro es h e he
    by_cases hsw : st.swallow = true
    · rcases hact : st.act with e2 | es2
      · cases e2 with
        | fmtError =>
          rw [runSteps_cons_swallow_err fail rest hsw hact] at h
          obtain ⟨st2, hm, es2, ha, hm2⟩ := ih es h e he
          exact ⟨st2, List.mem_cons_of_mem _ hm, es2, ha, hm2⟩
        | panicked msg =>
          rw [runSteps_cons_swallow_panic fail rest hsw hact] at h
          cases h
      · by_cases hfail : fail st.sid = true
        · rw [runSteps_cons_swallow_ok_fail fail rest hsw hact hfail] at h
          obtain ⟨st2, hm, es3, ha, hm2⟩ := ih es h e he
          exact ⟨st2, List.mem_cons_of_mem _ hm, es3, ha, hm2⟩
        · rw [runSteps_cons_swallow_ok fail rest hsw hact (by simpa using hfail)] at h
          cases hrun : runSteps fail rest with
          | error e3 => rw [hrun] at h; simp [Except.map] at h
          | ok tail =>
            rw [hrun] at h
            simp only [Except.map] at h
            cases h
            rcases List.mem_append.mp he with hm | hm
            · exact ⟨st, List.mem_cons_self _ _, es2, hact, hm⟩
            · obtain ⟨st2, hmm, es3, ha, hm2⟩ := ih tail hrun e hm
              exact ⟨st2, List.mem_cons_of_mem _ hmm, es3, ha, hm2⟩
    · replace hsw : st.swallow = false := by simpa using hsw
      by_cases hfail : fail st.sid = true
      · rw [runSteps_cons_fail fail rest hsw hfail] at h
        cases h
      · replace hfail : fail st.sid = false := by simpa using hfail
        rcases hact : st.act with e2 | es2
        · rw [runSteps_cons_err fail rest hsw hfail hact] at h
          cases h
        · rw [runSteps_cons_ok fail rest hsw hfail hact] at h
          cases hrun : runSteps fail rest with
          | error e3 => rw [hrun] at h; simp [Except.map] at h
          | ok tail =>
            rw [hrun] at h
            simp only [Except.map] at h
            cases h
            rcases List.mem_append.mp he with hm | hm
            · exact ⟨st, List.mem_cons_self _ _, es2, hact, hm⟩
            · obtain ⟨st2, hmm, es3, ha, hm2⟩ := ih tail hrun e hm
              exact ⟨st2, List.mem_cons_of_mem _ hmm, es3, ha, hm2⟩

theorem runSteps_append (fail : StepId → Bool) : ∀ (s1 s2 : List Step),
    runSteps fail (s1 ++ s2) =
      (runSteps fail s1).bind (fun es1 => (runSteps fail s2).map (fun es2 => es1 ++ es2)) := by
  intro s1
  induction s1 with
  | nil =>
    intro s2
    rw [List.nil_append, runSteps_nil]
    cases runSteps fail s2 with
    | error e => rfl
    | ok es => simp [Except.map, Except.bind]
  | cons st rest ih =>
    intro s2
    rw [List.cons_append]
    by_cases hsw : st.swallow = true
    · rcases hact : st.act with e2 | es2
      · cases e2 with
        | fmtError =>
          rw [runSteps_cons_swallow_err fail _ hsw hact,
            runSteps_cons_swallow_err fail _ hsw hact, ih]
        | panicked msg =>
          rw [runSteps_cons_swallow_panic fail _ hsw hact,
            runSteps_cons_swallow_panic fail _ hsw hact]
          rfl
      · by_cases hfail : fail st.sid = true
        · rw [runSteps_cons_swallow_ok_fail fail _ hsw hact hfail,
            runSteps_cons_swallow_ok_fail fail _ hsw hact hfail, ih]
        · replace hfail : fail st.sid = false := by simpa using hfail
          rw [runSteps_cons_swallow_ok fail _ hsw hact hfail,
            runSteps_cons_swallow_ok fail _ hsw hact hfail, ih]
          cases runSteps fail rest with
          | error e => rfl
          | ok es =>
            cases runSteps fail s2 with
            | error e => rfl
            | ok es3 => simp [Except.map, Except.bind]
    · replace hsw : st.swallow = false := by simpa using hsw
      by_cases hfail : fail st.sid = true
      · rw [runSteps_cons_fail fail _ hsw hfail, runSteps_cons_fail fail _ hsw hfail]
        rfl
      · replace hfail : fail st.sid = false := by simpa using hfail
        rcases hact : st.act with e2 | es2
        · rw [runSteps_cons_err fail _ hsw hfail hact, runSteps_cons_err fail _ hsw hfail hact]
          rfl
        · rw [runSteps_cons_ok fail _ hsw hfail hact, runSteps_cons_ok fail _ hsw hfail hact,
            ih]
          cases runSteps fail rest with
          | error e => rfl
          | ok es =>
            cases runSteps fail s2 with
            | error e => rfl
            | ok es3 => simp [Except.map, Except.bind]

theorem runSteps_congr_notfail (fail : StepId → Bool) : ∀ (steps : List Step),
    (∀ st ∈ steps, fail st.sid = false) →
    runSteps fail steps = runSteps (fun _ => false) steps := by
  intro steps
  induction steps with
  | nil => intro _; rfl
  | cons st rest ih =>
    intro h
    have h0 := h st (List.mem_cons_self _ _)
    have hrest := fun st2 h2 => h st2 (List.mem_cons_of_mem _ h2)
    by_cases hsw : st.swallow = true
    · rcases hact : st.act with e2 | es2
      · cases e2 with
        | fmtError =>
          rw [runSteps_cons_swallow_err fail _ hsw hact,
            runSteps_cons_swallow_err _ _ hsw hact, ih hrest]
        | panicked msg =>
          rw [runSteps_cons_swallow_panic fail _ hsw hact,
            runSteps_cons_swallow_panic _ _ hsw hact]
      · rw [runSteps_cons_swallow_ok fail _ hsw hact h0,
          runSteps_cons_swallow_ok _ _ hsw hact rfl, ih hrest]
    · replace hsw : st.swallow = false := by simpa using hsw
      rcases hact : st.act with e2 | es2
      · rw [runSteps_cons_err fail _ hsw h0 hact, runSteps_cons_err _ _ hsw rfl hact]
      · rw [runSteps_cons_ok fail _ hsw h0 hact, runSteps_cons_ok _ _ hsw rfl hact, ih hrest]

theorem runSteps_all_ok (fail : StepId → Bool) : ∀ (steps : List Step),
    (∀ st ∈ steps, ∃ es2, st.act = .ok es2) →
    (∀ st ∈ steps, fail st.sid = true → st.swallow = true) →
    ∃ es, runSteps fail steps = .ok es := by
  intro steps
  induction steps with
  | nil => intro _ _; exact ⟨[], rfl⟩
  | cons st rest ih =>
    intro hok hfs
    obtain ⟨es2, hact⟩ := hok st (List.mem_cons_self _ _)
    obtain ⟨tail, htail⟩ := ih (fun st2 h2 => hok st2 (List.mem_cons_of_mem _ h2))
      (fun st2 h2 => hfs st2 (List.mem_cons_of_mem _ h2))
    by_cases hsw : st.swallow = true
    · by_cases hfail : fail st.sid = true
      · exact ⟨tail, by rw [runSteps_cons_swallow_ok_fail fail _ hsw hact hfail, htail]⟩
      · replace hfail : fail st.sid = false := by simpa using hfail
        exact ⟨es2 ++ tail,
          by rw [runSteps_cons_swallow_ok fail _ hsw hact hfail, htail]; rfl⟩
    · replace hsw : st.swallow = false := by simpa using hsw
      have hfail : fail st.sid = false := by
        cases hf : fail st.sid with
        | false => rfl
        | true => exact absurd (hfs st (List.mem_cons_self _ _) hf) (by simp [hsw])
      exact ⟨es2 ++ tail, by rw [runSteps_cons_ok fail _ hsw hfail hact, htail]; rfl⟩

theorem runSteps_single_fail (fail : StepId → Bool) : ∀ (steps : List Step),
    (∀ st ∈ steps, st.swallow = true → fail st.sid = false) →
    runSteps fail steps = runSteps (fun _ => false) steps ∨
      runSteps fail steps = .error .fmtError := by
  intro steps
  induction steps with
  | nil => intro _; exact Or.inl rfl
  | cons st rest ih =>
    intro h
    have hrest := ih (fun st2 h2 => h st2 (List.mem_cons_of_mem _ h2))
    by_cases hsw : st.swallow = true
    · have h0 : fail st.sid = false := h st (List.mem_cons_self _ _) hsw
      rcases hact : st.act with e2 | es2
      · cases e2 with
        | fmtError =>
          rw [runSteps_cons_swallow_err fail _ hsw hact,
            runSteps_cons_swallow_err _ _ hsw hact]
          exact hrest
        | panicked msg =>
          rw [runSteps_cons_swallow_panic fail _ hsw hact,
            runSteps_cons_swallow_panic _ _ hsw hact]
          exact Or.inl rfl
      · rw [runSteps_cons_swallow_ok fail _ hsw hact h0,
          runSteps_cons_swallow_ok _ _ hsw hact rfl]
        rcases hrest with h2 | h2
        · exact Or.inl (by rw [h2])
        · exact Or.inr (by rw [h2]; rfl)
    · replace hsw : st.swallow = false := by simpa using hsw
      by_cases hfail : fail st.sid = true
      · exact Or.inr (runSteps_cons_fail fail _ hsw hfail)
      · replace hfail : fail st.sid = false := by simpa using hfail
        rcases hact : st.act with e2 | es2
        · rw [runSteps_cons_err fail _ hsw hfail hact, runSteps_cons_err _ _ hsw rfl hact]
          exact Or.inl rfl
        · rw [runSteps_cons_ok fail _ hsw hfail hact, runSteps_cons_ok _ _ hsw rfl hact]
          rcases hrest with h2 | h2
          · exact Or.inl (by rw [h2])
          · exact Or.inr (by rw [h2]; rfl)

theorem spanHealthy_iff {sp : SpanData} :
    spanHealthy sp = true ↔ ∃ fs, parseJson sp.fields = some (.obj fs) := by
  rw [spanHealthy]
  cases h : parseJson sp.fields with
  | none => simp
  | some v => cases v <;> simp

theorem sffEntries_of_obj (dbg ns : Bool) (sp : SpanData)
    (h : spanHealthy sp = true) : sffEntries dbg ns sp = .ok (nsEntries ns sp) := by
  obtain ⟨fs, hfs⟩ := spanHealthy_iff.mp h
  rw [sffEntries, hfs, nsEntries, spanObjFields, hfs]

theorem sffEntries_resilient (ns : Bool) (sp : SpanData) :
    ∃ es, sffEntries false ns sp = .ok es := by
  rw [sffEntries]
  cases h : parseJson sp.fields with
  | none => exact ⟨_, rfl⟩
  | some v => cases v <;> exact ⟨_, rfl⟩

theorem mergeParentEntries_obj (dbg ns : Bool) : ∀ (chain : List SpanData),
    (∀ sp ∈ chain, spanHealthy sp = true) →
    mergeParentEntries dbg ns chain = .ok ((chain.map (nsEntries ns)).flatten) := by
  intro chain
  induction chain with
  | nil => intro _; rfl
  | cons sp rest ih =>
    intro h
    rw [mergeParentEntries, sffEntries_of_obj dbg ns sp (h sp (List.mem_cons_self _ _)),
      ih (fun sp2 h2 => h sp2 (List.mem_cons_of_mem _ h2))]
    rfl

theorem mergeParentEntries_resilient (ns : Bool) : ∀ (chain : List SpanData),
    ∃ es, mergeParentEntries false ns chain = .ok es := by
  intro chain
  induction chain with
  | nil => exact ⟨[], rfl⟩
  | cons sp rest ih =>
    obtain ⟨es1, h1⟩ := sffEntries_resilient ns sp
    obtain ⟨es2, h2⟩ := ih
    exact ⟨es1 ++ es2, by rw [mergeParentEntries, h1, h2]; rfl⟩

theorem spanEntryValue_of_obj (dbg : Bool) (sp : SpanData) (h : spanHealthy sp = true) :
    spanEntryValue dbg sp = .ok (.obj (nsEntries false sp ++ [("name", .str sp.name)])) := by
  rw [spanEntryValue, sffEntries_of_obj dbg false sp h]
  rfl

theorem spanEntryValue_resilient (sp : SpanData) :
    ∃ v, spanEntryValue false sp = .ok v := by
  obtain ⟨es, h⟩ := sffEntries_resilient false sp
  exact ⟨_, by rw [spanEntryValue, h]; rfl⟩

theorem spanListValues_of_obj (dbg : Bool) : ∀ (l : List SpanData),
    (∀ sp ∈ l, spanHealthy sp = true) →
    spanListValues dbg l =
      .ok (l.map (fun sp => .obj (nsEntries false sp ++ [("name", .str sp.name)]))) := by
  intro l
  induction l with
  | nil => intro _; rfl
  | cons sp rest ih =>
    intro h
    rw [spanListValues, spanEntryValue_of_obj dbg sp (h sp (List.mem_cons_self _ _)),
      ih (fun sp2 h2 => h sp2 (List.mem_cons_of_mem _ h2))]
    rfl

theorem spanListValues_resilient : ∀ (l : List SpanData),
    ∃ vs, spanListValues false l = .ok vs := by
  intro l
  induction l with
  | nil => exact ⟨[], rfl⟩
  | cons sp rest ih =>
    obtain ⟨v, h1⟩ := spanEntryValue_resilient sp
    obtain ⟨vs, h2⟩ := ih
    exact ⟨v :: vs, by rw [spanListValues, h1, h2]; rfl⟩

theorem spansValue_of_obj (dbg : Bool) (chain : List SpanData)
    (h : ∀ sp ∈ chain, spanHealthy sp = true) :
    spansValue dbg chain =
      .ok (.arr (chain.reverse.map
        (fun sp => .obj (nsEntries false sp ++ [("name", .str sp.name)])))) := by
  rw [spansValue, spanListValues_of_obj dbg chain.reverse
    (fun sp h2 => h sp (List.mem_reverse.mp h2))]
  rfl

theorem spansValue_resilient (chain : List SpanData) :
    ∃ v, spansValue false chain = .ok v := by
  obtain ⟨vs, h⟩ := spanListValues_resilient chain.reverse
  exact ⟨.arr vs, by rw [spansValue, h]; rfl⟩

theorem mergeParentFieldsMapEntries_obj (dbg ns : Bool) (ev : List (String × FieldValue))
    (chain : List SpanData) (h : ∀ sp ∈ chain, spanHealthy sp = true) :
    mergeParentFieldsMapEntries dbg ns ev chain =
      .ok (eventEntries ev ++ (chain.map (nsEntries ns)).flatten) := by
  rw [mergeParentFieldsMapEntries, mergeParentEntries_obj dbg ns chain h]
  rfl

theorem mem_optStep {b : Bool} {st st2 : Step} (h : st2 ∈ optStep b st) : st2 = st := by
  rw [optStep] at h
  split_ifs at h
  · simpa using h
  · exact absurd h (by simp)

theorem mem_fieldsSteps {dbg : Bool} {fc : Json} {ev : List (String × FieldValue)}
    {chain : List SpanData} {st : Step} (h : st ∈ fieldsSteps dbg fc ev chain) :
    st.swallow = false ∧ (st.sid = StepId.fields ∨ st.sid = StepId.merged) := by
  rw [fieldsSteps] at h
  split_ifs at h
  · rcases List.mem_cons.mp h with he | hm
    · rw [he]
      exact ⟨rfl, Or.inl rfl⟩
    · rw [mem_optStep hm]
      exact ⟨rfl, Or.inr rfl⟩
  · rw [show st ∈ _ ↔ _ from List.mem_singleton] at h
    rw [h]
    exact ⟨rfl, Or.inl rfl⟩
  · rw [show st ∈ _ ↔ _ from List.mem_singleton] at h
    rw [h]
    exact ⟨rfl, Or.inl rfl⟩

theorem mem_spanStep {dbg : Bool} {fc : Json} {chain : List SpanData} {st : Step}
    (h : st ∈ spanStep dbg fc chain) :
    st.sid = StepId.span ∧ st.swallow = true ∧
      ∃ sp, chain.head? = some sp ∧
        st.act = (spanEntryValue dbg sp).map (fun v => [("span", v)]) := by
  rw [spanStep] at h
  cases hh : chain.head? with
  | none => rw [hh] at h; exact absurd h (by simp)
  | some sp =>
    rw [hh] at h
    rw [mem_optStep h]
    exact ⟨rfl, rfl, sp, rfl, rfl⟩

theorem mem_spansStep {dbg : Bool} {fc : Json} {chain : List SpanData} {st : Step}
    (h : st ∈ spansStep dbg fc chain) :
    st.sid = StepId.spans ∧ st.swallow = false ∧
      st.act = (spansValue dbg chain).map (fun v => [("spans", v)]) := by
  rw [spansStep] at h
  split_ifs at h
  · rw [show st ∈ _ ↔ _ from List.mem_singleton] at h
    rw [h]
    exact ⟨rfl, rfl, rfl⟩
  · exact absurd h (by simp)

theorem mem_threadSteps {dn di : Bool} {tn : Option String} {tid : String} {st : Step}
    (h : st ∈ threadSteps dn di tn tid) :
    st.swallow = false ∧ (st.sid = StepId.threadName ∨ st.sid = StepId.threadId) ∧
      ∃ es, st.act = .ok es := by
  cases dn <;> cases di <;> cases tn <;> simp [threadSteps] at h <;>
    (try rcases h with h | h) <;> simp_all

/-- In the emission sequence, the only step whose write failure is swallowed
is the "span" entry. -/
theorem eventSteps_swallow {dbg : Bool} {cfg : FormatCfg} {ts lvl tgt : String}
    {ev : List (String × FieldValue)} {chain : List SpanData} {tn : Option String}
    {tid : String} : ∀ st ∈ eventSteps dbg cfg ts lvl tgt ev chain tn tid,
    st.swallow = true → st.sid = StepId.span := by
  intro st h hswal
  rw [eventSteps] at h
  rcases List.mem_cons.mp h with he | h
  · rw [he] at hswal; cases hswal
  rcases List.mem_cons.mp h with he | h
  · rw [he] at hswal; cases hswal
  rcases List.mem_cons.mp h with he | h
  · rw [he] at hswal; cases hswal
  rcases List.mem_append.mp h with h | hF
  rotate_left
  · rcases List.mem_cons.mp hF with he | h2
    · rw [he] at hswal; cases hswal
    · rw [show st ∈ _ ↔ _ from List.mem_singleton] at h2
      rw [h2] at hswal
      cases hswal
  rcases List.mem_append.mp h with h | hE
  rotate_left
  · exact absurd hswal (by simp [(mem_threadSteps hE).1])
  rcases List.mem_append.mp h with h | hD
  rotate_left
  · exact absurd hswal (by simp [(mem_spansStep hD).2.1])
  rcases List.mem_append.mp h with h | hC
  rotate_left
  · exact (mem_spanStep hC).1
  rcases List.mem_append.mp h with hA | hB
  · exact absurd hswal (by simp [(mem_fieldsSteps hA).1])
  · rw [mem_optStep hB] at hswal
    cases hswal

theorem except_map_ok {α β : Type} {e : Except FmtErr α} {x : α} (h : e = .ok x)
    (f : α → β) : e.map f = .ok (f x) := by
  rw [h]
  rfl

theorem head_mem_of_eq {chain : List SpanData} {sp : SpanData}
    (h : chain.head? = some sp) : sp ∈ chain := by
  cases chain with
  | nil => cases h
  | cons a rest =>
    simp only [List.head?] at h
    cases h
    exact List.mem_cons_self _ _

/-- Every emission step's entries are produced without failure when either
the build is resilient (no debug assertions) or every span blob in the chain
parses as a JSON object. -/
theorem eventSteps_acts_ok {dbg : Bool} {cfg : FormatCfg} {ts lvl tgt : String}
    {ev : List (String × FieldValue)} {chain : List SpanData} {tn : Option String}
    {tid : String} (hok : dbg = false ∨ ∀ sp ∈ chain, spanHealthy sp = true) :
    ∀ st ∈ eventSteps dbg cfg ts lvl tgt ev chain tn tid, ∃ es, st.act = .ok es := by
  have hmerge : ∀ ns, ∃ es, mergeParentEntries dbg ns chain = .ok es := by
    intro ns
    rcases hok with h | h
    · subst h; exact mergeParentEntries_resilient ns chain
    · exact ⟨_, mergeParentEntries_obj dbg ns chain h⟩
  have hspansv : ∃ v, spansValue dbg chain = .ok v := by
    rcases hok with h | h
    · subst h; exact spansValue_resilient chain
    · exact ⟨_, spansValue_of_obj dbg chain h⟩
  have hspanv : ∀ sp, chain.head? = some sp → ∃ v, spanEntryValue dbg sp = .ok v := by
    intro sp hh
    rcases hok with h | h
    · subst h; exact spanEntryValue_resilient sp
    · exact ⟨_, spanEntryValue_of_obj dbg sp (h sp (head_mem_of_eq hh))⟩
  intro st h
  rw [eventSteps] at h
  rcases List.mem_cons.mp h with he | h
  · exact ⟨_, by rw [he]⟩
  rcases List.mem_cons.mp h with he | h
  · exact ⟨_, by rw [he]⟩
  rcases List.mem_cons.mp h with he | h
  · exact ⟨_, by rw [he]⟩
  rcases List.mem_append.mp h with h | hF
  rotate_left
  · rcases List.mem_cons.mp hF with he | h2
    · exact ⟨_, by rw [he]⟩
    · rw [show st ∈ _ ↔ _ from List.mem_singleton] at h2
      exact ⟨_, by rw [h2]⟩
  rcases List.mem_append.mp h with h | hE
  rotate_left
  · exact (mem_threadSteps hE).2.2
  rcases List.mem_append.mp h with h | hD
  rotate_left
  · obtain ⟨-, -, hact⟩ := mem_spansStep hD
    obtain ⟨v, hv⟩ := hspansv
    exact ⟨_, by rw [hact, except_map_ok hv]⟩
  rcases List.mem_append.mp h with h | hC
  rotate_left
  · obtain ⟨-, -, sp, hh, hact⟩ := mem_spanStep hC
    obtain ⟨v, hv⟩ := hspanv sp hh
    exact ⟨_, by rw [hact, except_map_ok hv]⟩
  rcases List.mem_append.mp h with hA | hB
  rotate_left
  · rw [mem_optStep hB]
    exact ⟨_, rfl⟩
  · rw [fieldsSteps] at hA
    split_ifs at hA
    · rcases List.mem_cons.mp hA with he | hm
      · exact ⟨_, by rw [he]⟩
      · rw [mem_optStep hm]
        exact hmerge _
    · rw [show st ∈ _ ↔ _ from List.mem_singleton] at hA
      obtain ⟨es, he⟩ := hmerge cfg.format.namespace_parent_fields
      refine ⟨[("fields", .obj (eventEntries ev ++ es))], ?_⟩
      rw [hA]
      show (mergeParentFieldsMapEntries dbg cfg.format.namespace_parent_fields ev chain).map _
        = _
      rw [mergeParentFieldsMapEntries, except_map_ok he, except_map_ok rfl]
    · rw [show st ∈ _ ↔ _ from List.mem_singleton] at hA
      exact ⟨_, by rw [hA]⟩

theorem threadSteps_keys {dn di : Bool} {tn : Option String} {tid : String} {st : Step}
    (h : st ∈ threadSteps dn di tn tid) :
    ∀ es2, st.act = .ok es2 → ∀ e ∈ es2, e.1 = "threadName" ∨ e.1 = "threadId" := by
  intro es2 hact e he
  cases dn <;> cases di <;> cases tn <;> simp [threadSteps] at h <;>
    (try rcases h with h | h) <;> (try subst h) <;> cases hact <;>
    (rcases List.mem_singleton.mp he with rfl; simp)

theorem eventEntries_key {ev : List (String × FieldValue)} {e : String × JsonValue}
    (h : e ∈ eventEntries ev) : e.1 ∈ ev.map Prod.fst := by
  rw [eventEntries] at h
  obtain ⟨f, hf, he⟩ := List.mem_map.mp h
  exact List.mem_map.mpr ⟨f, hf, by rw [← he]⟩

/-- With no active span, every entry emitted at the root has one of the
formatter's fixed keys, or (only when flattening) comes from the event's own
fields. -/
theorem eventSteps_keys_nospan {dbg : Bool} {cfg : FormatCfg} {ts lvl tgt : String}
    {ev : List (String × FieldValue)} {tn : Option String} {tid : String} :
    ∀ st ∈ eventSteps dbg cfg ts lvl tgt ev [] tn tid, ∀ es2, st.act = .ok es2 →
    ∀ e ∈ es2, e.1 = "timestamp" ∨ e.1 = "level" ∨ e.1 = "fields" ∨ e.1 = "target" ∨
      e.1 = "threadName" ∨ e.1 = "threadId" ∨
      (cfg.format.flatten_event = true ∧ e.1 ∈ ev.map Prod.fst) := by
  intro st h es2 hact e he
  rw [eventSteps] at h
  rcases List.mem_cons.mp h with hhe | h
  · rw [hhe] at hact
    cases hact
    exact absurd he (by simp)
  rcases List.mem_cons.mp h with hhe | h
  · rw [hhe] at hact
    cases hact
    rcases List.mem_singleton.mp he with rfl
    exact Or.inl rfl
  rcases List.mem_cons.mp h with hhe | h
  · rw [hhe] at hact
    cases hact
    rcases List.mem_singleton.mp he with rfl
    exact Or.inr (Or.inl rfl)
  rcases List.mem_append.mp h with h | hF
  rotate_left
  · rcases List.mem_cons.mp hF with hhe | h2
    · rw [hhe] at hact
      cases hact
      exact absurd he (by simp)
    · rw [show st ∈ _ ↔ _ from List.mem_singleton] at h2
      rw [h2] at hact
      cases hact
      exact absurd he (by simp)
  rcases List.mem_append.mp h with h | hE
  rotate_left
  · rcases threadSteps_keys hE es2 hact e he with h2 | h2
    · exact Or.inr (Or.inr (Or.inr (Or.inr (Or.inl h2))))
    · exact Or.inr (Or.inr (Or.inr (Or.inr (Or.inr (Or.inl h2)))))
  rcases List.mem_append.mp h with h | hD
  rotate_left
  · rw [spansStep] at hD
    simp at hD
  rcases List.mem_append.mp h with h | hC
  rotate_left
  · rw [spanStep] at hC
    simp [List.head?] at hC
  rcases List.mem_append.mp h with hA | hB
  rotate_left
  · rw [mem_optStep hB] at hact
    cases hact
    rcases List.mem_singleton.mp he with rfl
    exact Or.inr (Or.inr (Or.inr (Or.inl rfl)))
  · rw [fieldsSteps] at hA
    split_ifs at hA with hfl hmg
    · rcases List.mem_cons.mp hA with hhe | hm
      · rw [hhe] at hact
        cases hact
        exact Or.inr (Or.inr (Or.inr (Or.inr (Or.inr (Or.inr ⟨hfl, eventEntries_key he⟩)))))
      · rw [mem_optStep hm] at hact
        rw [show mergeParentEntries dbg cfg.format.namespace_parent_fields [] = .ok []
          from rfl] at hact
        cases hact
        exact absurd he (by simp)
    · rw [show st ∈ _ ↔ _ from List.mem_singleton] at hA
      rw [hA] at hact
      rw [show mergeParentFieldsMapEntries dbg cfg.format.namespace_parent_fields ev [] =
        .ok (eventEntries ev ++ []) from rfl] at hact
      rw [show (Except.ok (eventEntries ev ++ []) :
          Except FmtErr (List (String × JsonValue))).map
          (fun inner => [(("fields" : String), JsonValue.obj inner)]) =
        .ok [("fields", .obj (eventEntries ev ++ []))] from rfl] at hact
      cases hact
      rcases List.mem_singleton.mp he with rfl
      exact Or.inr (Or.inr (Or.inl rfl))
    · rw [show st ∈ _ ↔ _ from List.mem_singleton] at hA
      rw [hA] at hact
      cases hact
      rcases List.mem_singleton.mp he with rfl
      exact Or.inr (Or.inr (Or.inl rfl))

theorem recordAll_sorted (tracingLog : Bool) : ∀ (fs : List (String × FieldValue))
    (m : List (String × JsonValue)), SortedKeys m →
    SortedKeys (recordAll tracingLog fs m) := by
  intro fs
  induction fs with
  | nil => exact fun m h => h
  | cons f fs ih =>
    intro m h
    rw [show recordAll tracingLog (f :: fs) m =
      recordAll tracingLog fs (recordOne tracingLog m f) from rfl]
    refine ih _ ?_
    rw [recordOne_eq]
    cases storedKey tracingLog f with
    | none => exact h
    | some k => exact insertSorted_sorted h

/-- C1 (amended). For any nonempty sequence of field-record batches whose
stored keys need no JSON string escaping (which holds for all tracing field
names, since they are Rust identifiers), applying the batches to one span
through add_fields starting from the empty stored text produces exactly the
serialization of the visitor map that records all batches in order — so the
result does not depend on how the fields are split into batches — and that
blob parses back to the field-wise union with later batches overwriting
same-named earlier entries; moreover on an empty current text add_fields
behaves identically to a fresh format of the new fields. Keys that need
escaping break the claim because add_fields parses the stored blob into a
map keyed by borrowed strings, which fails on any escaped key (see the
counterexample). -/
theorem add_fields_merge_roundTrip (tracingLog : Bool)
    (b : List (String × FieldValue)) (bs : List (List (String × FieldValue)))
    (h : ((b :: bs).all (fun batch => batch.all (storedKeyOkB tracingLog))) = true) :
    applyBatches tracingLog "" (b :: bs) =
        finishStr (recordAll tracingLog (b :: bs).flatten []) ∧
      parseJson (applyBatches tracingLog "" (b :: bs)) =
        some (.obj (recordAll tracingLog (b :: bs).flatten [])) ∧
      ∀ fields, add_fields tracingLog "" fields = (.ok (), format_fields tracingLog fields) := by
  have hb : ∀ batch ∈ b :: bs, ∀ f ∈ batch, storedKeyOkB tracingLog f = true := by
    intro batch hm f hf
    exact List.all_eq_true.mp (List.all_eq_true.mp h batch hm) f hf
  have e1 : applyBatches tracingLog "" (b :: bs) =
      applyBatches tracingLog (finishStr (recordAll tracingLog b [])) bs := rfl
  obtain ⟨hs1, hc1⟩ := recordAll_fresh_inv tracingLog b
  have hne1 : ∀ kv ∈ recordAll tracingLog b [], noEscKey kv.1 = true :=
    recordAll_noesc tracingLog b [] (by intro kv hk; exact absurd hk (by simp))
      (hb b (List.mem_cons_self _ _))
  have e2 := applyBatches_main tracingLog bs (recordAll tracingLog b []) hs1 hc1 hne1
    (fun b2 h2 => hb b2 (List.mem_cons_of_mem _ h2))
  have e3 : recordAll tracingLog bs.flatten (recordAll tracingLog b []) =
      recordAll tracingLog (b :: bs).flatten [] := by
    rw [show (b :: bs).flatten = b ++ bs.flatten from rfl, recordAll_append]
  have main : applyBatches tracingLog "" (b :: bs) =
      finishStr (recordAll tracingLog (b :: bs).flatten []) := by
    rw [e1, e2, e3]
  obtain ⟨hsU, hcU⟩ := recordAll_fresh_inv tracingLog (b :: bs).flatten
  refine ⟨main, ?_, add_fields_empty tracingLog⟩
  rw [main]
  exact parseJson_finishStr _ hsU hcU

/-- C1 counterexample: the claim as stated fails for a field name that needs
JSON escaping. Recording the field "a\"b" in a first batch stores the blob
with an escaped key; the second add_fields call must parse that blob into a
map with borrowed string keys, which fails on the escape, so the call
returns an error and leaves the blob unchanged — the final blob does not
parse to the union of the two batches. -/
theorem add_fields_escaped_key_cex :
    applyBatches false "" [[("a\"b", FieldValue.str "x")], [("c", FieldValue.i64 1)]] =
        "\x7b\"a\\\"b\":\"x\"\x7d" ∧
      parseJson "\x7b\"a\\\"b\":\"x\"\x7d" = some (.obj [("a\"b", .str "x")]) ∧
      recordAll false ([[("a\"b", FieldValue.str "x")], [("c", FieldValue.i64 1)]].flatten) [] =
        [("a\"b", .str "x"), ("c", .int 1)] ∧
      (JsonValue.obj [("a\"b", JsonValue.str "x")] =
        JsonValue.obj [("a\"b", JsonValue.str "x"), ("c", JsonValue.int 1)] → False) := by
  refine ⟨rfl, rfl, rfl, ?_⟩
  intro h2
  have h3 := congrArg (fun v => match v with | JsonValue.obj l => l.length | _ => 0) h2
  simp at h3

/-- C1 witness at a concrete split of three fields into two batches. -/
theorem add_fields_merge_roundTrip_witness :
    parseJson (applyBatches false ""
        [[("a", FieldValue.i64 1)], [("b", FieldValue.str "x"), ("a", FieldValue.i64 2)]]) =
      some (.obj (recordAll false
        ([[("a", FieldValue.i64 1)],
          [("b", FieldValue.str "x"), ("a", FieldValue.i64 2)]]).flatten [])) :=
  (add_fields_merge_roundTrip false [("a", FieldValue.i64 1)]
    [[("b", FieldValue.str "x"), ("a", FieldValue.i64 2)]] (by decide)).2.1

/-- C2 (amended). When add_fields is given a non-empty current text that
does not parse as a JSON object with unescaped keys, the operation fails
with fmt::Error and leaves the stored text unchanged — in every build
configuration (the function contains no debug/release distinction): no
abort is raised and no field_error diagnostic blob is produced. -/
theorem add_fields_parse_failure (tracingLog : Bool) (current : String)
    (fields : List (String × FieldValue)) (h1 : current ≠ "")
    (h2 : parseBorrowedMap current = none) :
    add_fields tracingLog current fields = (.error .fmtError, current) := by
  rw [add_fields, if_neg h1, h2]

/-- C2 counterexample: on the unparseable stored text "bogus", add_fields
returns a plain formatting error and the unchanged text — it neither aborts
(no panic outcome exists on this path, in any configuration) nor produces a
best-effort blob carrying a field_error entry as the claim asserts for a
resilient build. -/
theorem add_fields_parse_failure_cex :
    add_fields false "bogus" [("a", FieldValue.i64 1)] = (.error .fmtError, "bogus") ∧
      add_fields true "bogus" [("a", FieldValue.i64 1)] = (.error .fmtError, "bogus") :=
  ⟨rfl, rfl⟩

/-- C2 witness. -/
theorem add_fields_parse_failure_witness :
    add_fields false "notjson" [("a", FieldValue.i64 1)] = (.error .fmtError, "notjson") :=
  add_fields_parse_failure false "notjson" [("a", FieldValue.i64 1)] (by decide) rfl

/-- C3 (amended). Only the debug fallback of the visitor strips the "r#"
raw-identifier marker before storing the key: for a name carrying the marker
(and, when the tracing-log feature is compiled in, not in the skipped "log."
namespace), record_debug stores the name with its first two characters
dropped, while the typed entry points for signed integers, unsigned
integers, booleans and strings store the name completely unmodified, marker
included. -/
theorem rawIdent_prefix_handling (tracingLog : Bool) (m : List (String × JsonValue))
    (name s : String) (hlog : (tracingLog && strStartsWith name "log.") = false)
    (hr : strStartsWith name "r#" = true) :
    record_debug tracingLog m name s = insertSorted (name.drop 2) (.str s) m ∧
      (∀ n : Int, record_i64 m name n = insertSorted name (.int n) m) ∧
      (∀ n : Nat, record_u64 m name n = insertSorted name (.int (n : Int)) m) ∧
      (∀ b : Bool, record_bool m name b = insertSorted name (.bool b) m) ∧
      (∀ v : String, record_str m name v = insertSorted name (.str v) m) := by
  refine ⟨?_, fun _ => rfl, fun _ => rfl, fun _ => rfl, fun _ => rfl⟩
  rw [record_debug, if_neg (by simp [hlog]), if_pos hr]

/-- C3 counterexample: the typed entry points do not strip the marker. The
signed-integer visitor stores the field name "r#type" as the literal key
"r#type"; in particular no entry under the stripped key "type" exists, while
the claim asserts every entry point stores the stripped name. -/
theorem rawIdent_prefix_handling_cex :
    record_i64 [] "r#type" 1 = [("r#type", .int 1)] ∧
      lookupKey "type" (record_i64 [] "r#type" 1) = none ∧
      lookupKey "r#type" (record_i64 [] "r#type" 1) = some (.int 1) :=
  ⟨rfl, rfl, rfl⟩

/-- C3 witness: the debug fallback on "r#type" stores the key "type". -/
theorem rawIdent_prefix_handling_witness :
    record_debug false [] "r#type" "v" = insertSorted ("r#type".drop 2) (.str "v") [] :=
  (rawIdent_prefix_handling false [] "r#type" "v" (by decide) (by decide)).1

/-- C4: after any single recording pass over the visitor (starting from the
fresh empty map format_fields uses), the resulting map's keys are strictly
increasing in lexicographic order — so serialization emits keys in
lexicographic order, not insertion order — and contain no duplicates; and
recording a field through any entry point makes its key map to the newly
recorded value, so a name collision is resolved by last-write-wins. -/
theorem visitor_map_invariants (tracingLog : Bool) (recs : List (String × FieldValue)) :
    SortedKeys (recordAll tracingLog recs []) ∧
      List.Pairwise (fun a b : String => a < b)
        ((recordAll tracingLog recs []).map Prod.fst) ∧
      ((recordAll tracingLog recs []).map Prod.fst).Nodup ∧
      (∀ (name : String) (v : Int),
        lookupKey name (record_i64 (recordAll tracingLog recs []) name v) = some (.int v)) ∧
      (∀ (name : String) (v : Nat),
        lookupKey name (record_u64 (recordAll tracingLog recs []) name v) =
          some (.int (v : Int))) ∧
      (∀ (name : String) (b : Bool),
        lookupKey name (record_bool (recordAll tracingLog recs []) name b) =
          some (.bool b)) ∧
      (∀ (name : String) (v : String),
        lookupKey name (record_str (recordAll tracingLog recs []) name v) =
          some (.str v)) := by
  have hs := recordAll_sorted tracingLog recs [] List.Pairwise.nil
  have hp : List.Pairwise (fun a b : String => a < b)
      ((recordAll tracingLog recs []).map Prod.fst) := List.pairwise_map.mpr hs
  refine ⟨hs, hp, hp.imp ne_of_lt, ?_, ?_, ?_, ?_⟩
  · exact fun name v => lookup_insertSorted name (.int v) _
  · exact fun name v => lookup_insertSorted name (.int (v : Int)) _
  · exact fun name b => lookup_insertSorted name (.bool b) _
  · exact fun name v => lookup_insertSorted name (.str v) _

/-- C5: dual failure policy of span-field serialization. For a span whose
stored blob is not a healthy JSON object: if the blob fails to parse, a
debug build panics with the malformed-fields message and a resilient build
emits a single field_error entry carrying the parse error text; if the blob
parses as valid JSON that is not an object, a debug build panics and a
resilient build emits a field entry holding the value paired with a
field_error entry; and in a resilient build the rest of the event still
formats successfully around such a span. -/
theorem sff_malformed_policy (name : String) (ns : Bool) (d : String)
    (h : spanHealthy ⟨name, d⟩ = false) :
    (parseJson d = none →
        sffEntries true ns ⟨name, d⟩ =
            .error (.panicked (panicMsg name (parseErrMsg d))) ∧
          sffEntries false ns ⟨name, d⟩ = .ok [("field_error", .str (parseErrMsg d))]) ∧
      (∀ v, parseJson d = some v →
        sffEntries true ns ⟨name, d⟩ =
            .error (.panicked (panicMsg name "invalid JSON object")) ∧
          sffEntries false ns ⟨name, d⟩ =
            .ok [("field", v), ("field_error", .str "field was no a valid object")]) ∧
      (∀ (cfg : FormatCfg) (ts lvl tgt : String) (ev : List (String × FieldValue))
        (tn : Option String) (tid : String),
        ∃ es, format_event false cfg (fun _ => false) ts lvl tgt ev [⟨name, d⟩] tn tid =
          .ok es) := by
  refine ⟨?_, ?_, ?_⟩
  · intro hp
    exact ⟨by rw [sffEntries, show (SpanData.mk name d).fields = d from rfl, hp]; rfl,
      by rw [sffEntries, show (SpanData.mk name d).fields = d from rfl, hp]; rfl⟩
  · intro v hv
    cases v with
    | obj fs =>
      exfalso
      rw [spanHealthy, show (SpanData.mk name d).fields = d from rfl, hv] at h
      cases h
    | null =>
      exact ⟨by rw [sffEntries, show (SpanData.mk name d).fields = d from rfl, hv]; rfl,
        by rw [sffEntries, show (SpanData.mk name d).fields = d from rfl, hv]; rfl⟩
    | bool b =>
      exact ⟨by rw [sffEntries, show (SpanData.mk name d).fields = d from rfl, hv]; rfl,
        by rw [sffEntries, show (SpanData.mk name d).fields = d from rfl, hv]; rfl⟩
    | int n =>
      exact ⟨by rw [sffEntries, show (SpanData.mk name d).fields = d from rfl, hv]; rfl,
        by rw [sffEntries, show (SpanData.mk name d).fields = d from rfl, hv]; rfl⟩
    | str s =>
      exact ⟨by rw [sffEntries, show (SpanData.mk name d).fields = d from rfl, hv]; rfl,
        by rw [sffEntries, show (SpanData.mk name d).fields = d from rfl, hv]; rfl⟩
    | arr xs =>
      exact ⟨by rw [sffEntries, show (SpanData.mk name d).fields = d from rfl, hv]; rfl,
        by rw [sffEntries, show (SpanData.mk name d).fields = d from rfl, hv]; rfl⟩
  · intro cfg ts lvl tgt ev tn tid
    exact runSteps_all_ok _ _ (eventSteps_acts_ok (Or.inl rfl))
      (fun st _ hf => by cases hf)

/-- C5 witness on a blob that fails to parse and one that parses as a
non-object value. -/
theorem sff_malformed_policy_witness :
    sffEntries true false ⟨"s", "bogus"⟩ =
        .error (.panicked (panicMsg "s" (parseErrMsg "bogus"))) ∧
      sffEntries false false ⟨"s", "bogus"⟩ =
        .ok [("field_error", .str (parseErrMsg "bogus"))] ∧
      sffEntries false false ⟨"s", "[1]"⟩ =
        .ok [("field", .arr [.int 1]),
          ("field_error", .str "field was no a valid object")] := by
  obtain ⟨h1, h2⟩ := (sff_malformed_policy "s" false "bogus" (by rfl)).1 rfl
  refine ⟨h1, h2, ?_⟩
  exact ((sff_malformed_policy "s" false "[1]" (by rfl)).2.1 (.arr [.int 1]) rfl).2

/-- C6 (amended). When an event fires with no active span, no emission step
itself contributes a span or spans entry, so in any configuration that does
not flatten the event's own fields into the root — and in flattening
configurations whenever the event's own field names avoid the literal names
"span" and "spans" — the successfully formatted output object contains
neither a span key nor a spans key. With flattening, an event field named
"span" or "spans" lands at the root verbatim, which breaks the claim's
unconditional form (see the counterexample). -/
theorem no_span_keys_without_span (dbg : Bool) (cfg : FormatCfg) (fail : StepId → Bool)
    (ts lvl tgt : String) (ev : List (String × FieldValue)) (tn : Option String)
    (tid : String) (es : List (String × JsonValue))
    (hok : format_event dbg cfg fail ts lvl tgt ev [] tn tid = .ok es)
    (hflat : cfg.format.flatten_event = false ∨
      ev.all (fun f => !(decide (f.1 = "span") || decide (f.1 = "spans"))) = true) :
    ∀ e ∈ es, e.1 ≠ "span" ∧ e.1 ≠ "spans" := by
  intro e he
  obtain ⟨st, hst, es2, hact, he2⟩ := runSteps_mem fail _ es hok e he
  have hk := eventSteps_keys_nospan st hst es2 hact e he2
  rcases hk with h | h | h | h | h | h | hh
  · rw [h]; exact ⟨by decide, by decide⟩
  · rw [h]; exact ⟨by decide, by decide⟩
  · rw [h]; exact ⟨by decide, by decide⟩
  · rw [h]; exact ⟨by decide, by decide⟩
  · rw [h]; exact ⟨by decide, by decide⟩
  · rw [h]; exact ⟨by decide, by decide⟩
  · obtain ⟨hfl, hmem⟩ := hh
    rcases hflat with hff | hall
    · rw [hff] at hfl
      cases hfl
    · obtain ⟨f, hf, he1⟩ := List.mem_map.mp hmem
      have h2 := List.all_eq_true.mp hall f hf
      simp only [Bool.not_eq_true', Bool.or_eq_false_iff, decide_eq_false_iff_not] at h2
      rw [← he1]
      exact h2

/-- C6 counterexample: with flatten_event on, an event field literally named
"span" appears as a root key "span" even though no span is active, refuting
the claim's "for every configuration" form. -/
theorem no_span_keys_without_span_cex :
    format_event false ⟨⟨true, false, false, false, true⟩, false, false, false⟩
        (fun _ => false) "t" "INFO" "x" [("span", FieldValue.i64 1)] [] none "tid" =
      .ok [("timestamp", .str "t"), ("level", .str "INFO"), ("span", .int 1)] ∧
    "span" ∈ [("timestamp", JsonValue.str "t"), ("level", JsonValue.str "INFO"),
      ("span", JsonValue.int 1)].map Prod.fst :=
  ⟨rfl, by decide⟩

/-- C6 witness: the default (non-flattening) configuration with no span. -/
theorem no_span_keys_without_span_witness :
    (("fields", JsonValue.obj []) : String × JsonValue).1 ≠ "span" ∧
      (("fields", JsonValue.obj []) : String × JsonValue).1 ≠ "spans" :=
  no_span_keys_without_span false ⟨⟨false, true, true, false, true⟩, false, false, false⟩
    (fun _ => false) "t" "INFO" "x" [] none "tid"
    [("timestamp", .str "t"), ("level", .str "INFO"), ("fields", .obj [])] rfl
    (Or.inl rfl) ("fields", .obj [])
    (List.Mem.tail _ (List.Mem.tail _ (List.Mem.head _)))

theorem nsEntries_false (sp : SpanData) : nsEntries false sp = spanObjFields sp := by
  simp [nsEntries]

/-- C7: merged parent fields and namespacing. With healthy spans and
merge_parent_fields on, the serialized root "fields" map consists of the
event's own entries followed by each span's entries; with
namespace_parent_fields on, every field contributed by a span appears under
the key formed from the span's name, a dot and the field's name; with it
off, the same field appears under its bare name, and same-named fields of
different spans each contribute their own repeated entry (the total count of
entries with a given key is the sum over spans, with no deduplication). -/
theorem merge_parent_namespacing (dbg : Bool) (ev : List (String × FieldValue))
    (chain : List SpanData) (h : ∀ sp ∈ chain, spanHealthy sp = true) :
    (∀ ns, mergeParentFieldsMapEntries dbg ns ev chain =
        .ok (eventEntries ev ++ (chain.map (nsEntries ns)).flatten)) ∧
      (∀ sp ∈ chain, ∀ kv ∈ spanObjFields sp,
        (sp.name ++ "." ++ kv.1, kv.2) ∈
          eventEntries ev ++ (chain.map (nsEntries true)).flatten) ∧
      (∀ sp ∈ chain, ∀ kv ∈ spanObjFields sp,
        kv ∈ eventEntries ev ++ (chain.map (nsEntries false)).flatten) ∧
      (∀ k : String,
        (chain.map (nsEntries false)).flatten.countP (fun e => decide (e.1 = k)) =
          (chain.map
            (fun sp => (spanObjFields sp).countP (fun kv => decide (kv.1 = k)))).sum) := by
  refine ⟨fun ns => mergeParentFieldsMapEntries_obj dbg ns ev chain h, ?_, ?_, ?_⟩
  · intro sp hsp kv hkv
    refine List.mem_append_right _ (List.mem_flatten.mpr ⟨nsEntries true sp, ?_, ?_⟩)
    · exact List.mem_map.mpr ⟨sp, hsp, rfl⟩
    · exact List.mem_map.mpr ⟨kv, hkv, rfl⟩
  · intro sp hsp kv hkv
    refine List.mem_append_right _ (List.mem_flatten.mpr ⟨nsEntries false sp, ?_, ?_⟩)
    · exact List.mem_map.mpr ⟨sp, hsp, rfl⟩
    · rw [nsEntries_false]
      exact hkv
  · intro k
    rw [List.countP_flatten, List.map_map]
    refine congrArg List.sum (List.map_congr_left ?_)
    intro sp _
    show (nsEntries false sp).countP (fun e => decide (e.1 = k)) = _
    rw [nsEntries_false]

/-- C7 witness: two healthy spans both carrying a field "k"; namespaced the
current span's copy appears as "a.k", and un-namespaced the entries with key
"k" number one per span. -/
theorem merge_parent_namespacing_witness :
    (("a.k" : String), JsonValue.int 1) ∈
      eventEntries [] ++
        (([⟨"a", "\x7b\"k\":1\x7d"⟩, ⟨"b", "\x7b\"k\":2\x7d"⟩] : List SpanData).map
          (nsEntries true)).flatten ∧
    (([⟨"a", "\x7b\"k\":1\x7d"⟩, ⟨"b", "\x7b\"k\":2\x7d"⟩] : List SpanData).map
        (nsEntries false)).flatten.countP (fun e => decide (e.1 = "k")) =
      (([⟨"a", "\x7b\"k\":1\x7d"⟩, ⟨"b", "\x7b\"k\":2\x7d"⟩] : List SpanData).map
        (fun sp => (spanObjFields sp).countP (fun kv => decide (kv.1 = "k")))).sum := by
  have hm := merge_parent_namespacing false []
    [⟨"a", "\x7b\"k\":1\x7d"⟩, ⟨"b", "\x7b\"k\":2\x7d"⟩] (by decide)
  exact ⟨hm.2.1 ⟨"a", "\x7b\"k\":1\x7d"⟩ (List.Mem.head _) ("k", .int 1)
    (List.Mem.head _), hm.2.2.2 "k"⟩

/-- C8 (amended). A write failure on any emission step other than the
current-span entry propagates: formatting the event either behaves as if no
write failed or fails as a whole with fmt::Error (never a partial success);
whenever formatting fails, the event produces no line at all in the output
stream; and a UTF-8 validation failure on the bridged write path is reported
as an InvalidData error before anything reaches the inner writer. The span
entry's write is the one exception: its result is discarded, so a failure
there is not propagated (see the counterexample). -/
theorem write_error_propagation (dbg : Bool) (cfg : FormatCfg) (ts lvl tgt : String)
    (ev : List (String × FieldValue)) (chain : List SpanData) (tn : Option String)
    (tid : String) (L : StepId) (hL : L ≠ StepId.span) :
    (format_event dbg cfg (fun l => decide (l = L)) ts lvl tgt ev chain tn tid =
        format_event dbg cfg (fun _ => false) ts lvl tgt ev chain tn tid ∨
      format_event dbg cfg (fun l => decide (l = L)) ts lvl tgt ev chain tn tid =
        .error .fmtError) ∧
      (∀ (fail : StepId → Bool) (err : FmtErr),
        format_event dbg cfg fail ts lvl tgt ev chain tn tid = .error err →
        emitEventToStream dbg cfg fail ts lvl tgt ev chain tn tid = none) ∧
      (∀ (w : String → Except Unit Unit) (buf : List Nat), utf8Decode buf = none →
        writeAdaptorWrite w buf = .error .invalidData) := by
  refine ⟨?_, ?_, ?_⟩
  · exact runSteps_single_fail (fun l => decide (l = L))
      (eventSteps dbg cfg ts lvl tgt ev chain tn tid)
      (fun st hm hsw => by
        rw [eventSteps_swallow st hm hsw]
        exact decide_eq_false (fun he => hL he.symm))
  · intro fail err hf
    rw [emitEventToStream, formatEventLine, hf]
    rfl
  · intro w buf h2
    rw [writeAdaptorWrite, h2]

/-- C8 counterexample: the output sink rejects exactly the current-span
entry's write — a recoverable formatting error — yet format_event succeeds
(merely without the span entry) and the event's full line is present in the
stream, so this error is neither propagated nor does it suppress the
event. -/
theorem write_error_propagation_cex :
    format_event false ⟨⟨false, true, false, false, true⟩, false, false, false⟩
        (fun l => decide (l = StepId.span)) "t" "INFO" "x" [] [⟨"s", "\x7b\x7d"⟩]
        none "tid" =
      .ok [("timestamp", .str "t"), ("level", .str "INFO"), ("fields", .obj [])] ∧
    emitEventToStream false ⟨⟨false, true, false, false, true⟩, false, false, false⟩
        (fun l => decide (l = StepId.span)) "t" "INFO" "x" [] [⟨"s", "\x7b\x7d"⟩]
        none "tid" =
      some "\x7b\"timestamp\":\"t\",\"level\":\"INFO\",\"fields\":\x7b\x7d\x7d\n" :=
  ⟨rfl, rfl⟩

/-- C8 witness: a failure injected on the fields write. -/
theorem write_error_propagation_witness :
    format_event false ⟨⟨false, true, true, false, true⟩, false, false, false⟩
        (fun l => decide (l = StepId.fields)) "t" "INFO" "x" [] [] none "tid" =
      format_event false ⟨⟨false, true, true, false, true⟩, false, false, false⟩
        (fun _ => false) "t" "INFO" "x" [] [] none "tid" ∨
    format_event false ⟨⟨false, true, true, false, true⟩, false, false, false⟩
        (fun l => decide (l = StepId.fields)) "t" "INFO" "x" [] [] none "tid" =
      .error .fmtError :=
  (write_error_propagation false ⟨⟨false, true, true, false, true⟩, false, false, false⟩
    "t" "INFO" "x" [] [] none "tid" StepId.fields (by decide)).1

/-- C9: thread data emission. When thread-name display is on and the thread
has a name, a threadName entry with that name is emitted; when the thread is
unnamed, the numeric thread-id string is emitted under threadName exactly
when id display is off (with both displays on, an unnamed thread yields only
the threadId entry); a threadId entry is emitted precisely when id display
is on; and a threadName entry exists precisely when name display is on and
either the thread is named or id display is off. -/
theorem thread_entries_policy (dn di : Bool) (tn : Option String) (tid : String) :
    (∀ n, tn = some n → dn = true →
      ("threadName", JsonValue.str n) ∈ threadEntries dn di tn tid) ∧
      (dn = true → tn = none → di = false →
        threadEntries dn di tn tid = [("threadName", .str tid)]) ∧
      (dn = true → tn = none → di = true →
        threadEntries dn di tn tid = [("threadId", .str tid)]) ∧
      (di = true → ("threadId", JsonValue.str tid) ∈ threadEntries dn di tn tid) ∧
      ((threadEntries dn di tn tid).any (fun e => decide (e.1 = "threadName")) =
        (dn && (tn.isSome || !di))) ∧
      ((threadEntries dn di tn tid).any (fun e => decide (e.1 = "threadId")) = di) := by
  cases dn <;> cases di <;> cases tn <;>
    simp [threadEntries, threadSteps]

/-- C9 witness: an unnamed thread with id display off falls back to the id
string under threadName. -/
theorem thread_entries_policy_witness :
    threadEntries true false none "ThreadId(1)" = [("threadName", .str "ThreadId(1)")] :=
  (thread_entries_policy true false none "ThreadId(1)").2.1 rfl rfl rfl

/-- C10: the current-span entry's write result is discarded. With
display_current_span on and a current span whose entry serializes (always
true in a resilient build, and in a debug build when the chain is healthy),
a write failure on exactly the "span" entry is silently swallowed: the event
still formats successfully and produces the same output as the unfailing
run minus the span entry, while every other step's entries are kept — the
failure is not propagated as it would be for any other emission step. -/
theorem span_write_failure_swallowed (dbg : Bool) (cfg : FormatCfg) (ts lvl tgt : String)
    (ev : List (String × FieldValue)) (sp : SpanData) (rest : List SpanData)
    (tn : Option String) (tid : String)
    (hdcs : cfg.format.display_current_span = true)
    (hok : dbg = false ∨ ∀ sp2 ∈ sp :: rest, spanHealthy sp2 = true) :
    ∃ v es1 es2,
      spanEntryValue dbg sp = .ok v ∧
      format_event dbg cfg (fun _ => false) ts lvl tgt ev (sp :: rest) tn tid =
        .ok (es1 ++ ([("span", v)] ++ es2)) ∧
      format_event dbg cfg (fun l => decide (l = StepId.span)) ts lvl tgt ev (sp :: rest)
        tn tid = .ok (es1 ++ es2) := by
  obtain ⟨v, hv⟩ : ∃ v, spanEntryValue dbg sp = .ok v := by
    rcases hok with h | h
    · subst h
      exact spanEntryValue_resilient sp
    · exact ⟨_, spanEntryValue_of_obj dbg sp (h sp (List.mem_cons_self _ _))⟩
  have hsplit : eventSteps dbg cfg ts lvl tgt ev (sp :: rest) tn tid =
      ({ sid := .timer, act := .ok [], swallow := false } ::
       { sid := .timestamp, act := .ok [("timestamp", .str ts)], swallow := false } ::
       { sid := .level, act := .ok [("level", .str lvl)], swallow := false } ::
       (fieldsSteps dbg cfg.format ev (sp :: rest) ++
        optStep cfg.display_target
          { sid := .target, act := .ok [("target", .str tgt)], swallow := false })) ++
      (spanStep dbg cfg.format (sp :: rest) ++
       (spansStep dbg cfg.format (sp :: rest) ++
        (threadSteps cfg.display_thread_name cfg.display_thread_id tn tid ++
         [{ sid := .endObj, act := .ok [], swallow := false },
          { sid := .newline, act := .ok [], swallow := false }]))) := by
    rw [eventSteps]
    simp only [List.cons_append, List.append_assoc]
  have hBsteps : spanStep dbg cfg.format (sp :: rest) =
      [{ sid := .span, act := .ok [("span", v)], swallow := true }] := by
    rw [spanStep]
    show optStep cfg.format.display_current_span _ = _
    rw [optStep, if_pos hdcs, except_map_ok hv]
  have hA_sid : ∀ st ∈ ({ sid := StepId.timer, act := .ok [], swallow := false } ::
      { sid := .timestamp, act := .ok [("timestamp", .str ts)], swallow := false } ::
      { sid := .level, act := .ok [("level", .str lvl)], swallow := false } ::
      (fieldsSteps dbg cfg.format ev (sp :: rest) ++
       optStep cfg.display_target
         { sid := .target, act := .ok [("target", .str tgt)], swallow := false })),
      st.sid ≠ StepId.span := by
    intro st h
    rcases List.mem_cons.mp h with he | h
    · rw [he]; simp
    rcases List.mem_cons.mp h with he | h
    · rw [he]; simp
    rcases List.mem_cons.mp h with he | h
    · rw [he]; simp
    rcases List.mem_append.mp h with h | h
    · rcases (mem_fieldsSteps h).2 with h2 | h2 <;> rw [h2] <;> decide
    · rw [mem_optStep h]; simp
  have hC_sid : ∀ st ∈ (spansStep dbg cfg.format (sp :: rest) ++
      (threadSteps cfg.display_thread_name cfg.display_thread_id tn tid ++
       [{ sid := StepId.endObj, act := .ok [], swallow := false },
        { sid := .newline, act := .ok [], swallow := false }])),
      st.sid ≠ StepId.span := by
    intro st h
    rcases List.mem_append.mp h with h | h
    · rw [(mem_spansStep h).1]; decide
    rcases List.mem_append.mp h with h | h
    · rcases (mem_threadSteps h).2.1 with h2 | h2 <;> rw [h2] <;> decide
    rcases List.mem_cons.mp h with he | h
    · rw [he]; simp
    · rw [List.mem_singleton.mp h]; simp
  have hacts := @eventSteps_acts_ok dbg cfg ts lvl tgt ev (sp :: rest) tn tid hok
  rw [hsplit] at hacts
  have hA_ok : ∃ esA, runSteps (fun _ => false)
      ({ sid := StepId.timer, act := .ok [], swallow := false } ::
       { sid := .timestamp, act := .ok [("timestamp", .str ts)], swallow := false } ::
       { sid := .level, act := .ok [("level", .str lvl)], swallow := false } ::
       (fieldsSteps dbg cfg.format ev (sp :: rest) ++
        optStep cfg.display_target
          { sid := .target, act := .ok [("target", .str tgt)], swallow := false })) =
      .ok esA :=
    runSteps_all_ok _ _ (fun st h => hacts st (List.mem_append_left _ h))
      (fun st _ hf => absurd hf (by decide))
  have hC_ok : ∃ esC, runSteps (fun _ => false)
      (spansStep dbg cfg.format (sp :: rest) ++
       (threadSteps cfg.display_thread_name cfg.display_thread_id tn tid ++
        [{ sid := StepId.endObj, act := .ok [], swallow := false },
         { sid := .newline, act := .ok [], swallow := false }])) = .ok esC :=
    runSteps_all_ok _ _
      (fun st h => hacts st (List.mem_append_right _ (List.mem_append_right _ h)))
      (fun st _ hf => absurd hf (by decide))
  obtain ⟨esA, hA⟩ := hA_ok
  obtain ⟨esC, hC⟩ := hC_ok
  have hAf : runSteps (fun l => decide (l = StepId.span))
      ({ sid := StepId.timer, act := .ok [], swallow := false } ::
       { sid := .timestamp, act := .ok [("timestamp", .str ts)], swallow := false } ::
       { sid := .level, act := .ok [("level", .str lvl)], swallow := false } ::
       (fieldsSteps dbg cfg.format ev (sp :: rest) ++
        optStep cfg.display_target
          { sid := .target, act := .ok [("target", .str tgt)], swallow := false })) =
      .ok esA := by
    rw [runSteps_congr_notfail _ _ (fun st h => decide_eq_false (hA_sid st h)), hA]
  have hCf : runSteps (fun l => decide (l = StepId.span))
      (spansStep dbg cfg.format (sp :: rest) ++
       (threadSteps cfg.display_thread_name cfg.display_thread_id tn tid ++
        [{ sid := StepId.endObj, act := .ok [], swallow := false },
         { sid := .newline, act := .ok [], swallow := false }])) = .ok esC := by
    rw [runSteps_congr_notfail _ _ (fun st h => decide_eq_false (hC_sid st h)), hC]
  have hBn : runSteps (fun _ => false) (spanStep dbg cfg.format (sp :: rest)) =
      .ok [("span", v)] := by
    rw [hBsteps]
    exact (@runSteps_cons_swallow_ok (fun _ => false)
      { sid := .span, act := .ok [("span", v)], swallow := true } [] rfl
      [("span", v)] rfl rfl).trans rfl
  have hBf : runSteps (fun l => decide (l = StepId.span))
      (spanStep dbg cfg.format (sp :: rest)) = .ok [] := by
    rw [hBsteps]
    exact (@runSteps_cons_swallow_ok_fail (fun l => decide (l = StepId.span))
      { sid := .span, act := .ok [("span", v)], swallow := true } [] rfl
      [("span", v)] rfl rfl).trans (runSteps_nil _)
  refine ⟨v, esA, esC, hv, ?_, ?_⟩
  · rw [format_event, hsplit, runSteps_append, hA, runSteps_append, hBn, hC]
    rfl
  · rw [format_event, hsplit, runSteps_append, hAf, runSteps_append, hBf, hCf]
    rfl

/-- C10 witness: a healthy current span under the default configuration with
the span list display off. -/
theorem span_write_failure_swallowed_witness :
    ∃ v es1 es2,
      spanEntryValue false ⟨"s", "\x7b\x7d"⟩ = .ok v ∧
      format_event false ⟨⟨false, true, false, false, true⟩, false, false, false⟩
          (fun _ => false) "t" "INFO" "x" [] [⟨"s", "\x7b\x7d"⟩] none "tid" =
        .ok (es1 ++ ([("span", v)] ++ es2)) ∧
      format_event false ⟨⟨false, true, false, false, true⟩, false, false, false⟩
          (fun l => decide (l = StepId.span)) "t" "INFO" "x" [] [⟨"s", "\x7b\x7d"⟩]
          none "tid" =
        .ok (es1 ++ es2) :=
  span_write_failure_swallowed false ⟨⟨false, true, false, false, true⟩, false, false, false⟩
    "t" "INFO" "x" [] ⟨"s", "\x7b\x7d"⟩ [] none "tid" rfl (Or.inl rfl)
